import Mathlib

/-!
# Lifecycle orchestrator, destruction callbacks and window registry

A shallow embedding of two classes of the browser-process backbone:

* `atom::AtomBrowserMainParts` (atom/browser/atom_browser_main_parts.cc):
  the exit-code slot (`exit_code_`, `SetExitCode`, `GetExitCode`,
  `MainMessageLoopRun`) and the destruction-callback list (`destructors_`,
  `RegisterDestructionCallback`, `Erase`, the run-all loop of
  `PostMainMessageLoopRun`);
* `atom::WindowList` (atom/browser/window_list.cc): the window vector, the
  observer list and `AddWindow`, `RemoveWindow`, `CloseAllWindows`.

Pointers are modelled as natural-number addresses into explicit stores,
`std::list` nodes carry an identity so that iterators and erase tokens can be
followed through mutation, and behaviour the C++ standard leaves undefined
(dereferencing an iterator to an erased node, erasing a node twice) is
surfaced as an explicit `Fault`.
-/

namespace atom

/-! ## Data model of `AtomBrowserMainParts` -/

/-- Address of a host-owned `int` (the target of an `int*`). -/
abbrev Addr := Nat

/-- Identity of a node of `std::list<base::Closure>`; a list iterator that is
not `end()` is the identity of the node it points to. -/
abbrev NodeId := Nat

/-- Body of a `base::Closure` registered as a destruction callback, reduced to
what it does to the orchestrator: nothing more (`ret`), some side effect
outside the registry identified by a tag (`effect`), running the token that
`RegisterDestructionCallback` returned for a node (`runToken`), or calling
`RegisterDestructionCallback` with a further closure (`registerCb`). The last
argument of each constructor is the rest of the body. -/
inductive Closure where
  | ret : Closure
  | effect : Nat → Closure → Closure
  | runToken : NodeId → Closure → Closure
  | registerCb : Closure → Closure → Closure
  deriving DecidableEq, Repr

/-- State of the orchestrator. `exit_code_` and `destructors_` are the members
of the class; `heap` is the host memory an `int*` points into, `next_node` is
the allocator of list nodes (every inserted node gets a fresh identity) and
`effects` records the tagged side effects of the callbacks run so far. An
`int` is an `Int`: exit codes are stored and read back, never computed with. -/
structure AtomBrowserMainParts where
  exit_code_ : Option Addr
  destructors_ : List (NodeId × Closure)
  heap : Addr → Int
  next_node : NodeId
  effects : List Nat

/-- Constructor `AtomBrowserMainParts::AtomBrowserMainParts()`:
`exit_code_(nullptr)` and an empty `destructors_`, over a given host memory. -/
def AtomBrowserMainParts.init (heap : Addr → Int) : AtomBrowserMainParts :=
  { exit_code_ := none, destructors_ := [], heap := heap, next_node := 0, effects := [] }

/-! ## Exit code -/

/-- Assignment `*p = v` on the host memory. -/
def store (heap : Addr → Int) (p : Addr) (v : Int) : Addr → Int :=
  fun a => if a = p then v else heap a

/-- Method `bool AtomBrowserMainParts::SetExitCode(int code)`:
`if (!exit_code_) return false; *exit_code_ = code; return true;`. -/
def SetExitCode (code : Int) (s : AtomBrowserMainParts) : Bool × AtomBrowserMainParts :=
  match s.exit_code_ with
  | none => (false, s)
  | some p => (true, { s with heap := store s.heap p code })

/-- Method `int AtomBrowserMainParts::GetExitCode()`:
`return exit_code_ != nullptr ? *exit_code_ : 0;`. -/
def GetExitCode (s : AtomBrowserMainParts) : Int :=
  match s.exit_code_ with
  | some p => s.heap p
  | none => 0

/-- Method `bool AtomBrowserMainParts::MainMessageLoopRun(int* result_code)`:
`exit_code_ = result_code; return brightray::BrowserMainParts::MainMessageLoopRun(result_code);`.
The base-class call is not part of this class and is taken as the parameter
`base`: given the pointer and the host memory it returns its result and the
host memory it leaves (it cannot touch the private members). -/
def MainMessageLoopRun (base : Addr → (Addr → Int) → Bool × (Addr → Int))
    (result_code : Addr) (s : AtomBrowserMainParts) : Bool × AtomBrowserMainParts :=
  let s1 := { s with exit_code_ := some result_code }
  let r := base result_code s1.heap
  (r.1, { s1 with heap := r.2 })

/-- The base-class `MainMessageLoopRun` of the content layer: it does not run
a loop of its own, leaves the result code alone and returns `false`. -/
def baseNoLoop : Addr → (Addr → Int) → Bool × (Addr → Int) :=
  fun _ h => (false, h)

/-! ## Destruction callbacks -/

/-- Undefined behaviour of the C++ program, made observable.
`invalid_iterator id`: the run-all loop used an iterator whose node `id` had
been erased. `invalid_token id`: a token was run whose node `id` is not in the
list (it was erased before or never existed). `out_of_fuel`: the bound on the
number of loop iterations given to the model was reached. -/
inductive Fault where
  | invalid_iterator : NodeId → Fault
  | invalid_token : NodeId → Fault
  | out_of_fuel : Fault
  deriving DecidableEq, Repr

/-- Identities of the nodes of the list, first to last. -/
def nodeIds (l : List (NodeId × Closure)) : List NodeId :=
  l.map Prod.fst

/-- Dereference `*iter`: the closure stored in node `id`, if the node is in the list. -/
def deref : List (NodeId × Closure) → NodeId → Option Closure
  | [], _ => none
  | (i, c) :: rest, id => if i = id then some c else deref rest id

/-- Iterator `destructors_.begin()`: the first node, `none` standing for `end()`. -/
def listBegin (l : List (NodeId × Closure)) : Option NodeId :=
  match l with
  | [] => none
  | (i, _) :: _ => some i

/-- Increment `++iter` for an iterator at node `id`: the node after it in the list as it
is now, `none` standing for `end()`. -/
def listNext : List (NodeId × Closure) → NodeId → Option NodeId
  | [], _ => none
  | (i, _) :: rest, id => if i = id then listBegin rest else listNext rest id

/-- Call `container->erase(iter)` on `std::list`: unlinks the node `id` and nothing
else. -/
def listErase : List (NodeId × Closure) → NodeId → List (NodeId × Closure)
  | [], _ => []
  | (i, c) :: rest, id => if i = id then rest else (i, c) :: listErase rest id

/-- Method `base::Closure AtomBrowserMainParts::RegisterDestructionCallback(callback)`:
`auto iter = destructors_.insert(destructors_.end(), callback);
return base::Bind(&Erase<...>, &destructors_, iter);`.
The returned token is a closure bound to the iterator of the new node; it is
represented by the identity of that node. -/
def RegisterDestructionCallback (callback : Closure) (s : AtomBrowserMainParts) :
    NodeId × AtomBrowserMainParts :=
  (s.next_node,
   { s with destructors_ := s.destructors_ ++ [(s.next_node, callback)],
            next_node := s.next_node + 1 })

/-- Function `template<typename T> void Erase(T* container, typename T::iterator iter)`
as bound in a token: `container->erase(iter)`. Erasing through an iterator
whose node is no longer in the list is undefined and reported as a fault. -/
def Erase (iter : NodeId) (s : AtomBrowserMainParts) : Except Fault AtomBrowserMainParts :=
  if iter ∈ nodeIds s.destructors_ then
    .ok { s with destructors_ := listErase s.destructors_ iter }
  else
    .error (.invalid_token iter)

/-- Call `callback.Run()`: executes the body of a closure on the orchestrator. -/
def Closure.Run : Closure → AtomBrowserMainParts → Except Fault AtomBrowserMainParts
  | .ret, s => .ok s
  | .effect tag k, s => k.Run { s with effects := s.effects ++ [tag] }
  | .runToken id k, s =>
    match Erase id s with
    | .ok s1 => k.Run s1
    | .error f => .error f
  | .registerCb c k, s => k.Run (RegisterDestructionCallback c s).2

/-- What a pass over the callbacks leaves: the nodes whose callback was run, in
the order they were run (`trace`), and the final state or the fault that
stopped the pass. -/
structure RunResult where
  trace : List (NodeId × Closure)
  result : Except Fault AtomBrowserMainParts

/-- The loop of `PostMainMessageLoopRun`, from an iterator position:
`for (...; iter != destructors_.end();) { base::Closure& callback = *iter;
++iter; callback.Run(); }`. `fuel` bounds the number of evaluations of the
loop condition. An iterator whose node has been erased is reported as a fault
when the loop uses it next. A callback that erases its own node is followed at
the level of the list only: the iterator has left that node already. -/
def runLoop : Nat → AtomBrowserMainParts → Option NodeId → List (NodeId × Closure) → RunResult
  | 0, _, _, trace => { trace := trace, result := .error .out_of_fuel }
  | _ + 1, s, none, trace => { trace := trace, result := .ok s }
  | fuel + 1, s, some id, trace =>
    match deref s.destructors_ id with
    | none => { trace := trace, result := .error (.invalid_iterator id) }
    | some callback =>
      let iter := listNext s.destructors_ id
      match callback.Run s with
      | .error f => { trace := trace ++ [(id, callback)], result := .error f }
      | .ok s1 => runLoop fuel s1 iter (trace ++ [(id, callback)])

/-- Number of nodes a closure can come to occupy: itself and every closure it
registers, transitively. -/
def Closure.weight : Closure → Nat
  | .ret => 1
  | .effect _ k => k.weight
  | .runToken _ k => k.weight
  | .registerCb c k => c.weight + k.weight

/-- Total weight of the closures of a list of nodes. -/
def listWeight : List (NodeId × Closure) → Nat
  | [] => 0
  | (_, c) :: rest => c.weight + listWeight rest

/-- The run-all part of `void AtomBrowserMainParts::PostMainMessageLoopRun()`:
the loop over `destructors_` from `begin()`. The calls made before and after
the loop go to other classes and are not modelled. The loop is given as many
iterations as the registered closures can ever need (`listWeight`, plus the
last evaluation of the loop condition). -/
def PostMainMessageLoopRun (s : AtomBrowserMainParts) : RunResult :=
  runLoop (listWeight s.destructors_ + 1) s (listBegin s.destructors_) []

/-- Calls `RegisterDestructionCallback` on each closure in turn; returns the
tokens in the order of the calls and the resulting state. -/
def registerAll : List Closure → AtomBrowserMainParts → List NodeId × AtomBrowserMainParts
  | [], s => ([], s)
  | c :: cs, s =>
    let r := RegisterDestructionCallback c s
    let rest := registerAll cs r.2
    (r.1 :: rest.1, rest.2)

/-- The closure neither runs a token nor registers a callback. -/
def Closure.inert : Closure → Bool
  | .ret => true
  | .effect _ k => k.inert
  | .runToken _ _ => false
  | .registerCb _ _ => false

/-- Tags of the side effects of a closure body, in program order (tokens and
registrations skipped). -/
def Closure.tags : Closure → List Nat
  | .ret => []
  | .effect tag k => tag :: k.tags
  | .runToken _ k => k.tags
  | .registerCb _ k => k.tags

/-- The closures a closure body passes to `RegisterDestructionCallback`, in
program order. -/
def Closure.registers : Closure → List Closure
  | .ret => []
  | .effect _ k => k.registers
  | .runToken _ k => k.registers
  | .registerCb c k => c :: k.registers

/-- The closure body runs no token. -/
def Closure.noToken : Closure → Bool
  | .ret => true
  | .effect _ k => k.noToken
  | .runToken _ _ => false
  | .registerCb _ k => k.noToken

/-- Tags of the side effects of the closures of a list of nodes, first node
first. -/
def listTags : List (NodeId × Closure) → List Nat
  | [] => []
  | (_, c) :: rest => c.tags ++ listTags rest

/-- Tags of the side effects of a list of closures, first closure first. -/
def allTags : List Closure → List Nat
  | [] => []
  | c :: rest => c.tags ++ allTags rest

/-- The orchestrator after its constructor and one `RegisterDestructionCallback`
call for each closure of `cbs`, in order. -/
def registered (heap : Addr → Int) (cbs : List Closure) : AtomBrowserMainParts :=
  (registerAll cbs (AtomBrowserMainParts.init heap)).2

/-- The part of the list from node `id` on (empty when the node is not in the
list): what an iterator at `id` still has in front of it. -/
def tailFrom : List (NodeId × Closure) → NodeId → List (NodeId × Closure)
  | [], _ => []
  | (i, c) :: rest, id => if i = id then (i, c) :: rest else tailFrom rest id

/-- Weight of what the iterator still has in front of it. -/
def pending (l : List (NodeId × Closure)) : Option NodeId → Nat
  | none => 0
  | some id => listWeight (tailFrom l id)

/-- Invariant of the node allocator: the nodes of the list have distinct
identities, all handed out already. -/
def WellFormed (s : AtomBrowserMainParts) : Prop :=
  (nodeIds s.destructors_).Nodup ∧ ∀ id ∈ nodeIds s.destructors_, id < s.next_node

/-! ## Histories of calls on the orchestrator -/

/-- A call on the orchestrator made by the host or by application code. -/
inductive Call where
  | setExitCode : Int → Call
  | mainMessageLoopRun : Addr → Call
  | registerDestructionCallback : Closure → Call
  | runToken : NodeId → Call
  | postMainMessageLoopRun : Call
  deriving DecidableEq, Repr

/-- Performs one call; the results returned to the caller are dropped. -/
def Call.exec (base : Addr → (Addr → Int) → Bool × (Addr → Int)) :
    Call → AtomBrowserMainParts → Except Fault AtomBrowserMainParts
  | .setExitCode code, s => .ok (SetExitCode code s).2
  | .mainMessageLoopRun p, s => .ok (MainMessageLoopRun base p s).2
  | .registerDestructionCallback c, s => .ok (RegisterDestructionCallback c s).2
  | .runToken id, s => Erase id s
  | .postMainMessageLoopRun, s => (PostMainMessageLoopRun s).result

/-- Performs a history of calls, first to last, stopping at a fault. -/
def execAll (base : Addr → (Addr → Int) → Bool × (Addr → Int)) :
    List Call → AtomBrowserMainParts → Except Fault AtomBrowserMainParts
  | [], s => .ok s
  | c :: cs, s =>
    match c.exec base s with
    | .ok s1 => execAll base cs s1
    | .error f => .error f

/-- The `result_code` of the last `MainMessageLoopRun` call of a history. -/
def lastRun : List Call → Option Addr
  | [] => none
  | c :: cs =>
    match lastRun cs with
    | some p => some p
    | none =>
      match c with
      | .mainMessageLoopRun p => some p
      | _ => none

/-- The `code` of the last `SetExitCode` call of a history. -/
def lastCode : List Call → Option Int
  | [] => none
  | c :: cs =>
    match lastCode cs with
    | some v => some v
    | none =>
      match c with
      | .setExitCode v => some v
      | _ => none

/-! ## Window registry -/

/-- Identity of a `NativeWindow*` (windows are not owned by the registry). -/
abbrev NativeWindow := Nat

/-- Identity of a `WindowListObserver*`. -/
abbrev Observer := Nat

/-- The notifications of `WindowListObserver`. -/
inductive WindowEvent where
  | OnWindowAdded : NativeWindow → WindowEvent
  | OnWindowRemoved : NativeWindow → WindowEvent
  | OnWindowAllClosed : WindowEvent
  | OnWindowCloseCancelled : NativeWindow → WindowEvent
  deriving DecidableEq, Repr

/-- The statics of `WindowList`: `instance_` (null until first use, then the
object holding `windows_`), the observer list `observers_`, and the record of
the notifications delivered so far, each with the observer that received it. -/
structure WindowList where
  instance_ : Option (List NativeWindow)
  observers_ : List Observer
  delivered : List (Observer × WindowEvent)
  deriving DecidableEq, Repr

/-- Method `WindowList::GetInstance()`: `if (!instance_) instance_ = new WindowList;`. -/
def WindowList.GetInstance (s : WindowList) : WindowList :=
  match s.instance_ with
  | none => { s with instance_ := some [] }
  | some _ => s

/-- The vector `GetInstance()->windows_` (empty when the instance is yet to be
created). -/
def WindowList.windows_ (s : WindowList) : List NativeWindow :=
  match s.instance_ with
  | none => []
  | some v => v

/-- Loop `for (WindowListObserver& observer : observers_.Get()) observer.<event>`:
every observer, in list order, receives the event. The handlers are virtual
methods of other classes; here an observer only records what it receives. -/
def WindowList.notify (ev : WindowEvent) (s : WindowList) : WindowList :=
  { s with delivered := s.delivered ++ s.observers_.map (fun o => (o, ev)) }

/-- Method `WindowList::AddWindow(window)`: `windows.push_back(window)` on the
instance, then `OnWindowAdded(window)` to every observer. The debug-only
`DCHECK(window)` is left out. -/
def WindowList.AddWindow (window : NativeWindow) (s : WindowList) : WindowList :=
  let s1 := s.GetInstance
  let s2 := { s1 with instance_ := some (s1.windows_ ++ [window]) }
  s2.notify (.OnWindowAdded window)

/-- The loop of `std::remove(first, last, value)` over a vector `v`: `i` is the
read position, `first` the write position, `n` the number of positions left to
read; an element different from `value` is moved to `v[first]`. Returns the
vector and the final write position (the new logical end). -/
def removeLoop (value : NativeWindow) :
    Nat → List NativeWindow → Nat → Nat → List NativeWindow × Nat
  | 0, v, first, _ => (v, first)
  | n + 1, v, first, i =>
    match v[i]? with
    | none => (v, first)
    | some x =>
      if x = value then removeLoop value n v first (i + 1)
      else removeLoop value n (v.set first x) (first + 1) (i + 1)

/-- Call `std::remove(v.begin(), v.end(), value)`: the loop over the whole
vector, from read and write position 0. -/
def stdRemove (v : List NativeWindow) (value : NativeWindow) : List NativeWindow × Nat :=
  removeLoop value v.length v 0 0

/-- Call `v.erase(pos, v.end())` on a vector: keeps the elements before `pos`. -/
def vectorEraseToEnd (v : List NativeWindow) (pos : Nat) : List NativeWindow :=
  v.take pos

/-- Method `WindowList::RemoveWindow(window)`:
`windows.erase(std::remove(windows.begin(), windows.end(), window), windows.end());`
then `OnWindowRemoved(window)` to every observer, then, `if (windows.size() == 0)`,
`OnWindowAllClosed()` to every observer. -/
def WindowList.RemoveWindow (window : NativeWindow) (s : WindowList) : WindowList :=
  let s1 := s.GetInstance
  let r := stdRemove s1.windows_ window
  let s2 := { s1 with instance_ := some (vectorEraseToEnd r.1 r.2) }
  let s3 := s2.notify (.OnWindowRemoved window)
  if s3.windows_.length = 0 then s3.notify .OnWindowAllClosed else s3

/-- Method `base::ObserverList::AddObserver` as used by `WindowList::AddObserver`: an
observer that is already in the list is not added again. -/
def WindowList.AddObserver (observer : Observer) (s : WindowList) : WindowList :=
  if observer ∈ s.observers_ then s
  else { s with observers_ := s.observers_ ++ [observer] }

/-- The loop of `CloseAllWindows` over the snapshot: `window->Close()` for each
entry. `Close` is the close operation of a window, a method of another class:
any transformation of the registry. Returns the windows `Close` was invoked
on, in order, and the registry the handlers leave. -/
def closeEach (Close : NativeWindow → WindowList → WindowList) :
    List NativeWindow → WindowList → List NativeWindow → List NativeWindow × WindowList
  | [], s, calls => (calls, s)
  | window :: rest, s, calls => closeEach Close rest (Close window s) (calls ++ [window])

/-- Method `WindowList::CloseAllWindows()`:
`WindowVector windows = GetInstance()->windows_; for (const auto& window : windows) window->Close();`
where `windows` is a copy. -/
def WindowList.CloseAllWindows (Close : NativeWindow → WindowList → WindowList)
    (s : WindowList) : List NativeWindow × WindowList :=
  let s1 := s.GetInstance
  let windows := s1.windows_
  closeEach Close windows s1 []

/-- The statics at process start: no instance yet, no observer, nothing
delivered. -/
def WindowList.init : WindowList :=
  { instance_ := none, observers_ := [], delivered := [] }

/-- A close operation for the examples: closing a window takes it out of the
registry, and closing window 1 takes window 2 out as well. -/
def closeAlsoRemoving (window : NativeWindow) (s : WindowList) : WindowList :=
  if window = 1 then (s.RemoveWindow 1).RemoveWindow 2 else s.RemoveWindow window

/-- The events an observer has received, in the order of delivery. -/
def eventsOf (o : Observer) (l : List (Observer × WindowEvent)) : List WindowEvent :=
  (l.filter (fun e => e.1 = o)).map Prod.snd

end atom

/-! # Theorems -/

namespace atom

/-! ## Exit code -/

theorem SetExitCode_unbound (code : Int) (s : AtomBrowserMainParts)
    (h : s.exit_code_ = none) : SetExitCode code s = (false, s) := by
  simp [SetExitCode, h]

theorem SetExitCode_bound (code : Int) (s : AtomBrowserMainParts) (p : Addr)
    (h : s.exit_code_ = some p) :
    SetExitCode code s = (true, { s with heap := store s.heap p code }) := by
  simp [SetExitCode, h]

theorem SetExitCode_exit_code (code : Int) (s : AtomBrowserMainParts) :
    (SetExitCode code s).2.exit_code_ = s.exit_code_ := by
  unfold SetExitCode
  cases h : s.exit_code_ <;> simp [h]

/-- C5. `SetExitCode(code)` on an orchestrator without a bound slot returns
false and leaves the whole state as it was, so `GetExitCode` is unchanged; with
a slot bound to `p` it returns true, stores `code` in `*p` and changes nothing
else, and `GetExitCode` then returns `code`. -/
theorem SetExitCode_contract (code : Int) (s : AtomBrowserMainParts) :
    (s.exit_code_ = none →
      SetExitCode code s = (false, s) ∧
      GetExitCode (SetExitCode code s).2 = GetExitCode s) ∧
    (∀ p, s.exit_code_ = some p →
      (SetExitCode code s).1 = true ∧
      (SetExitCode code s).2 = { s with heap := store s.heap p code } ∧
      (SetExitCode code s).2.heap p = code ∧
      GetExitCode (SetExitCode code s).2 = code) := by
  refine ⟨fun h => ?_, fun p h => ?_⟩
  · rw [SetExitCode_unbound code s h]
    exact ⟨rfl, rfl⟩
  · rw [SetExitCode_bound code s p h]
    refine ⟨rfl, rfl, ?_, ?_⟩
    · simp [store]
    · simp [GetExitCode, h, store]

/-- Witness for C5: the fresh orchestrator (no slot), and the orchestrator in
its run phase with the slot at address 3, both with code 7. -/
theorem SetExitCode_contract_witness :
    ((AtomBrowserMainParts.init (fun _ => 0)).exit_code_ = none ∧
      GetExitCode (SetExitCode 7 (AtomBrowserMainParts.init (fun _ => 0))).2 =
        GetExitCode (AtomBrowserMainParts.init (fun _ => 0))) ∧
    ((MainMessageLoopRun baseNoLoop 3 (AtomBrowserMainParts.init (fun _ => 0))).2.exit_code_
        = some 3 ∧
      GetExitCode (SetExitCode 7
        (MainMessageLoopRun baseNoLoop 3 (AtomBrowserMainParts.init (fun _ => 0))).2).2 = 7) :=
  ⟨⟨rfl, ((SetExitCode_contract 7 (AtomBrowserMainParts.init (fun _ => 0))).1 rfl).2⟩,
   ⟨rfl, ((SetExitCode_contract 7
      (MainMessageLoopRun baseNoLoop 3 (AtomBrowserMainParts.init (fun _ => 0))).2).2 3 rfl).2.2.2⟩⟩

/-! ### The destruction-callback operations leave the slot and the heap alone -/

theorem Erase_frame (id : NodeId) (s s1 : AtomBrowserMainParts) (h : Erase id s = .ok s1) :
    s1.exit_code_ = s.exit_code_ ∧ s1.heap = s.heap := by
  unfold Erase at h
  split at h
  · cases h; exact ⟨rfl, rfl⟩
  · cases h

theorem Run_frame (c : Closure) : ∀ (s s1 : AtomBrowserMainParts), c.Run s = .ok s1 →
    s1.exit_code_ = s.exit_code_ ∧ s1.heap = s.heap := by
  induction c with
  | ret => intro s s1 h; simp [Closure.Run] at h; subst h; exact ⟨rfl, rfl⟩
  | effect tag k ih => intro s s1 h; simp only [Closure.Run] at h; have h2 := ih _ _ h; exact h2
  | runToken id k ih =>
    intro s s1 h
    simp only [Closure.Run] at h
    cases he : Erase id s with
    | error f => rw [he] at h; cases h
    | ok s2 =>
      rw [he] at h
      have h1 := Erase_frame id s s2 he
      have h2 := ih _ _ h
      exact ⟨h2.1.trans h1.1, h2.2.trans h1.2⟩
  | registerCb c k _ ih => intro s s1 h; simp only [Closure.Run] at h; have h2 := ih _ _ h; exact h2

theorem runLoop_frame : ∀ (fuel : Nat) (s : AtomBrowserMainParts) (iter : Option NodeId)
    (trace : List (NodeId × Closure)) (s1 : AtomBrowserMainParts),
    (runLoop fuel s iter trace).result = .ok s1 →
    s1.exit_code_ = s.exit_code_ ∧ s1.heap = s.heap := by
  intro fuel
  induction fuel with
  | zero => intro s iter trace s1 h; simp [runLoop] at h
  | succ n ih =>
    intro s iter trace s1 h
    cases iter with
    | none => simp [runLoop] at h; subst h; exact ⟨rfl, rfl⟩
    | some id =>
      simp only [runLoop] at h
      cases hd : deref s.destructors_ id with
      | none => rw [hd] at h; simp at h
      | some cb =>
        rw [hd] at h
        simp only at h
        cases hr : cb.Run s with
        | error f => rw [hr] at h; simp at h
        | ok s2 =>
          rw [hr] at h
          have h1 := Run_frame cb s s2 hr
          have h2 := ih _ _ _ _ h
          exact ⟨h2.1.trans h1.1, h2.2.trans h1.2⟩

theorem Call_exec_exit_code (base : Addr → (Addr → Int) → Bool × (Addr → Int)) (c : Call)
    (s s1 : AtomBrowserMainParts) (h : c.exec base s = .ok s1) :
    s1.exit_code_ =
      (match c with
       | .mainMessageLoopRun p => some p
       | _ => s.exit_code_) := by
  cases c with
  | setExitCode code =>
    simp only [Call.exec, Except.ok.injEq] at h
    subst h; exact SetExitCode_exit_code code s
  | mainMessageLoopRun p =>
    simp only [Call.exec, Except.ok.injEq] at h
    subst h; rfl
  | registerDestructionCallback c =>
    simp only [Call.exec, Except.ok.injEq] at h
    subst h; rfl
  | runToken id => exact (Erase_frame id s s1 h).1
  | postMainMessageLoopRun => exact (runLoop_frame _ _ _ _ _ h).1

theorem execAll_exit_code (base : Addr → (Addr → Int) → Bool × (Addr → Int)) :
    ∀ (calls : List Call) (s s1 : AtomBrowserMainParts), execAll base calls s = .ok s1 →
    s1.exit_code_ =
      (match lastRun calls with
       | some p => some p
       | none => s.exit_code_) := by
  intro calls
  induction calls with
  | nil => intro s s1 h; simp [execAll] at h; subst h; rfl
  | cons c cs ih =>
    intro s s1 h
    simp only [execAll] at h
    cases hc : c.exec base s with
    | error f => rw [hc] at h; cases h
    | ok s2 =>
      rw [hc] at h
      have h1 := ih _ _ h
      have h2 := Call_exec_exit_code base c s s2 hc
      rw [h1, h2]
      simp only [lastRun]
      cases lastRun cs with
      | some p => rfl
      | none => cases c <;> rfl

theorem execAll_append (base : Addr → (Addr → Int) → Bool × (Addr → Int)) :
    ∀ (xs ys : List Call) (s s1 : AtomBrowserMainParts),
    execAll base (xs ++ ys) s = .ok s1 →
    ∃ s0, execAll base xs s = .ok s0 ∧ execAll base ys s0 = .ok s1 := by
  intro xs
  induction xs with
  | nil => intro ys s s1 h; exact ⟨s, rfl, h⟩
  | cons c cs ih =>
    intro ys s s1 h
    simp only [List.cons_append, execAll] at h ⊢
    cases hc : c.exec base s with
    | error f => rw [hc] at h; cases h
    | ok s2 => rw [hc] at h; exact ih ys s2 s1 h

theorem Call_exec_heap (base : Addr → (Addr → Int) → Bool × (Addr → Int)) (c : Call)
    (s s1 : AtomBrowserMainParts) (h : c.exec base s = .ok s1) (hc : lastRun [c] = none)
    (a : Addr) :
    s1.heap a = if s.exit_code_ = some a then (lastCode [c]).getD (s.heap a) else s.heap a := by
  cases c with
  | setExitCode code =>
    simp only [Call.exec, Except.ok.injEq] at h
    subst h
    cases he : s.exit_code_ with
    | none => simp [SetExitCode, he]
    | some p =>
      by_cases hap : a = p
      · subst hap; simp [SetExitCode, he, store, lastCode]
      · have hpa : ¬ p = a := fun e => hap e.symm
        simp [SetExitCode, he, store, hap, hpa]
  | mainMessageLoopRun p => simp [lastRun] at hc
  | registerDestructionCallback c =>
    simp only [Call.exec, Except.ok.injEq] at h
    subst h; simp [RegisterDestructionCallback, lastCode]
  | runToken id =>
    have := (Erase_frame id s s1 h).2
    simp [this, lastCode]
  | postMainMessageLoopRun =>
    have := (runLoop_frame _ _ _ _ _ h).2
    simp [this, lastCode]

theorem lastRun_cons_none (c : Call) (cs : List Call) (h : lastRun (c :: cs) = none) :
    lastRun [c] = none ∧ lastRun cs = none := by
  simp only [lastRun] at h ⊢
  cases hcs : lastRun cs with
  | some p => rw [hcs] at h; cases h
  | none => rw [hcs] at h; exact ⟨h, rfl⟩

theorem execAll_heap (base : Addr → (Addr → Int) → Bool × (Addr → Int)) :
    ∀ (calls : List Call) (s s1 : AtomBrowserMainParts), execAll base calls s = .ok s1 →
    lastRun calls = none → ∀ a : Addr,
    s1.heap a = if s.exit_code_ = some a then (lastCode calls).getD (s.heap a) else s.heap a := by
  intro calls
  induction calls with
  | nil => intro s s1 h _ a; simp [execAll] at h; subst h; simp [lastCode]
  | cons c cs ih =>
    intro s s1 h hl a
    simp only [execAll] at h
    obtain ⟨hl1, hl2⟩ := lastRun_cons_none c cs hl
    cases hc : c.exec base s with
    | error f => rw [hc] at h; cases h
    | ok s2 =>
      rw [hc] at h
      have h1 := ih _ _ h hl2 a
      have h2 := Call_exec_heap base c s s2 hc hl1 a
      have h3 := Call_exec_exit_code base c s s2 hc
      have h4 : s2.exit_code_ = s.exit_code_ := by
        rw [h3]; cases c <;> first | rfl | simp [lastRun] at hl1
      rw [h1, h4, h2]
      simp only [lastCode]
      by_cases hb : s.exit_code_ = some a
      · simp only [hb, if_true]
        cases lastCode cs with
        | some v => rfl
        | none => cases c <;> rfl
      · simp only [hb, if_false]

/-- C6 as stated fails: after `MainMessageLoopRun(&result_code)` has returned
(the base class returning at once), the slot is still bound to `result_code`
(address 3), and a following `SetExitCode(7)` returns true and overwrites the
0 stored there. -/
theorem slot_bound_after_run_returned :
    (MainMessageLoopRun baseNoLoop 3 (AtomBrowserMainParts.init (fun _ => 0))).2.exit_code_
      ≠ none ∧
    (SetExitCode 7
      (MainMessageLoopRun baseNoLoop 3 (AtomBrowserMainParts.init (fun _ => 0))).2).1 ≠ false ∧
    (MainMessageLoopRun baseNoLoop 3 (AtomBrowserMainParts.init (fun _ => 0))).2.heap 3 = 0 ∧
    (SetExitCode 7
      (MainMessageLoopRun baseNoLoop 3 (AtomBrowserMainParts.init (fun _ => 0))).2).2.heap 3
      = 7 := by
  decide

/-- C6, amended. The slot is unbound in the freshly constructed orchestrator;
after any history of calls it is bound exactly when the history contains a
`MainMessageLoopRun`, and then to the `result_code` of the last one: nothing
unbinds it. Hence `SetExitCode` returns true in every state after a
`MainMessageLoopRun`, and writes its code into that slot. -/
theorem exit_code_bound_from_run_on (base : Addr → (Addr → Int) → Bool × (Addr → Int))
    (heap : Addr → Int) (calls : List Call) (s : AtomBrowserMainParts) (code : Int)
    (h : execAll base calls (AtomBrowserMainParts.init heap) = .ok s) :
    (AtomBrowserMainParts.init heap).exit_code_ = none ∧
    s.exit_code_ = lastRun calls ∧
    (SetExitCode code s).1 = (lastRun calls).isSome ∧
    (∀ p, lastRun calls = some p → (SetExitCode code s).2.heap p = code) := by
  have he : s.exit_code_ = lastRun calls := by
    rw [execAll_exit_code base calls _ s h]
    cases lastRun calls <;> rfl
  refine ⟨rfl, he, ?_, ?_⟩
  · cases hl : lastRun calls with
    | none => rw [hl] at he; simp [SetExitCode, he]
    | some p => rw [hl] at he; simp [SetExitCode, he]
  · intro p hl
    rw [hl] at he
    simp [SetExitCode, he, store]

/-- Witness for C6 (amended): the run phase is entered with the slot at
address 3, code 5 is set, the callbacks are run; `SetExitCode 7` afterwards. -/
theorem exit_code_bound_from_run_on_witness :
    execAll baseNoLoop [.mainMessageLoopRun 3, .setExitCode 5, .postMainMessageLoopRun]
        (AtomBrowserMainParts.init (fun _ => 0))
      = .ok { exit_code_ := some 3, destructors_ := [], heap := store (fun _ => 0) 3 5,
              next_node := 0, effects := [] } ∧
    (SetExitCode 7 { exit_code_ := some 3, destructors_ := [], heap := store (fun _ => 0) 3 5,
                     next_node := 0, effects := [] }).1 = true :=
  ⟨rfl, (exit_code_bound_from_run_on baseNoLoop (fun _ => 0)
      [.mainMessageLoopRun 3, .setExitCode 5, .postMainMessageLoopRun] _ 7 rfl).2.2.1⟩

/-- C7 as stated fails: the host enters the run phase with 5 in `*result_code`
and `SetExitCode` is never called; `GetExitCode()` returns 5, not 0. -/
theorem GetExitCode_returns_host_content :
    GetExitCode (MainMessageLoopRun baseNoLoop 3 (AtomBrowserMainParts.init (fun _ => 5))).2
      = 5 ∧
    GetExitCode (MainMessageLoopRun baseNoLoop 3 (AtomBrowserMainParts.init (fun _ => 5))).2
      ≠ 0 := by
  decide

/-- C7, amended. In a history with one `MainMessageLoopRun(result_code)`:
before that call `GetExitCode()` returns 0; after it `GetExitCode()` returns
the code of the most recent `SetExitCode` call made since (each of them
succeeds), and when there was none, the content of `*result_code` as the host
and the base class left it. -/
theorem GetExitCode_history (base : Addr → (Addr → Int) → Bool × (Addr → Int))
    (heap : Addr → Int) (pre post : List Call) (p : Addr) (s : AtomBrowserMainParts)
    (hpre : lastRun pre = none) (hpost : lastRun post = none)
    (h : execAll base (pre ++ Call.mainMessageLoopRun p :: post)
          (AtomBrowserMainParts.init heap) = .ok s) :
    (∃ s0, execAll base pre (AtomBrowserMainParts.init heap) = .ok s0 ∧ GetExitCode s0 = 0) ∧
    GetExitCode s = (lastCode post).getD ((base p heap).2 p) := by
  obtain ⟨s0, h0, h1⟩ := execAll_append base pre _ _ s h
  have e0 : s0.exit_code_ = none := by
    rw [execAll_exit_code base pre _ s0 h0, hpre]; rfl
  have hh0 : s0.heap = heap := by
    funext a
    have := execAll_heap base pre _ s0 h0 hpre a
    simpa [AtomBrowserMainParts.init] using this
  refine ⟨⟨s0, h0, by simp [GetExitCode, e0]⟩, ?_⟩
  simp only [execAll, Call.exec] at h1
  have e1 : s.exit_code_ = some p := by
    rw [execAll_exit_code base post _ s h1, hpost]; rfl
  have hh1 := execAll_heap base post _ s h1 hpost p
  simp only [GetExitCode, e1, hh1]
  simp [MainMessageLoopRun, hh0]

/-- Witness for C7 (amended): a callback is registered, the run phase is
entered with 5 in the slot at address 3, then codes 7 and 9 are set. -/
theorem GetExitCode_history_witness :
    execAll baseNoLoop
        ([.registerDestructionCallback .ret] ++
          Call.mainMessageLoopRun 3 :: [.setExitCode 7, .setExitCode 9])
        (AtomBrowserMainParts.init (fun _ => 5))
      = .ok { exit_code_ := some 3, destructors_ := [(0, .ret)],
              heap := store (store (fun _ => 5) 3 7) 3 9, next_node := 1, effects := [] } ∧
    GetExitCode { exit_code_ := some 3, destructors_ := [(0, .ret)],
                  heap := store (store (fun _ => 5) 3 7) 3 9, next_node := 1, effects := [] }
      = 9 :=
  ⟨rfl, (GetExitCode_history baseNoLoop (fun _ => 5) [.registerDestructionCallback .ret]
      [.setExitCode 7, .setExitCode 9] 3 _ rfl rfl rfl).2⟩

/-! ## Destruction callbacks -/

theorem registerAll_spec : ∀ (cbs : List Closure) (s : AtomBrowserMainParts),
    (registerAll cbs s).1 = List.range' s.next_node cbs.length ∧
    (registerAll cbs s).2 =
      { s with
        destructors_ := s.destructors_ ++ (List.range' s.next_node cbs.length).zip cbs,
        next_node := s.next_node + cbs.length } := by
  intro cbs
  induction cbs with
  | nil => intro s; simp [registerAll]
  | cons c cs ih =>
    intro s
    have h := ih (RegisterDestructionCallback c s).2
    simp only [registerAll, h.1, h.2]
    simp [RegisterDestructionCallback, List.range'_succ, Nat.add_assoc, Nat.add_comm 1]

theorem Run_inert (c : Closure) : ∀ (s : AtomBrowserMainParts), c.inert = true →
    c.Run s = .ok { s with effects := s.effects ++ c.tags } := by
  induction c with
  | ret => intro s _; simp [Closure.Run, Closure.tags]
  | effect tag k ih =>
    intro s h
    simp only [Closure.inert] at h
    simp [Closure.Run, Closure.tags, ih _ h]
  | runToken id k _ => intro s h; simp [Closure.inert] at h
  | registerCb c k _ _ => intro s h; simp [Closure.inert] at h

theorem weight_inert (c : Closure) : c.inert = true → c.weight = 1 := by
  induction c with
  | ret => intro _; rfl
  | effect tag k ih => intro h; simp only [Closure.inert] at h; simpa [Closure.weight] using ih h
  | runToken id k _ => intro h; simp [Closure.inert] at h
  | registerCb c k _ _ => intro h; simp [Closure.inert] at h

theorem listWeight_append (xs ys : List (NodeId × Closure)) :
    listWeight (xs ++ ys) = listWeight xs + listWeight ys := by
  induction xs with
  | nil => simp [listWeight]
  | cons x xs ih => obtain ⟨i, c⟩ := x; simp [listWeight, ih, Nat.add_assoc]

theorem listWeight_inert (l : List (NodeId × Closure)) (h : ∀ x ∈ l, x.2.inert = true) :
    listWeight l = l.length := by
  induction l with
  | nil => rfl
  | cons x xs ih =>
    obtain ⟨i, c⟩ := x
    have hc : c.weight = 1 := weight_inert c (h (i, c) (List.mem_cons_self _ _))
    have := ih (fun y hy => h y (List.mem_cons_of_mem _ hy))
    simp [listWeight, hc, this, Nat.add_comm]

theorem listTags_append (xs ys : List (NodeId × Closure)) :
    listTags (xs ++ ys) = listTags xs ++ listTags ys := by
  induction xs with
  | nil => simp [listTags]
  | cons x xs ih => obtain ⟨i, c⟩ := x; simp [listTags, ih]

theorem deref_append_cons (pre post : List (NodeId × Closure)) (id : NodeId) (c : Closure)
    (h : id ∉ nodeIds pre) : deref (pre ++ (id, c) :: post) id = some c := by
  induction pre with
  | nil => simp [deref]
  | cons x xs ih =>
    obtain ⟨i, d⟩ := x
    simp only [nodeIds, List.map_cons, List.mem_cons, not_or] at h
    have hne : ¬ i = id := fun e => h.1 e.symm
    simp only [List.cons_append, deref, hne, if_false]
    exact ih h.2

theorem listNext_append_cons (pre post : List (NodeId × Closure)) (id : NodeId) (c : Closure)
    (h : id ∉ nodeIds pre) : listNext (pre ++ (id, c) :: post) id = listBegin post := by
  induction pre with
  | nil => simp [listNext]
  | cons x xs ih =>
    obtain ⟨i, d⟩ := x
    simp only [nodeIds, List.map_cons, List.mem_cons, not_or] at h
    have hne : ¬ i = id := fun e => h.1 e.symm
    simp only [List.cons_append, listNext, hne, if_false]
    exact ih h.2

theorem deref_not_mem (l : List (NodeId × Closure)) (id : NodeId) (h : id ∉ nodeIds l) :
    deref l id = none := by
  induction l with
  | nil => rfl
  | cons x xs ih =>
    obtain ⟨i, d⟩ := x
    simp only [nodeIds, List.map_cons, List.mem_cons, not_or] at h
    have hne : ¬ i = id := fun e => h.1 e.symm
    simp only [deref, hne, if_false]
    exact ih h.2

/-- The loop walks through a stretch `mid` of closures that leave the registry
alone: each is run once, in list order, and the loop goes on behind it. -/
theorem runLoop_inert_segment : ∀ (mid pre post : List (NodeId × Closure))
    (s : AtomBrowserMainParts) (f : Nat) (trace : List (NodeId × Closure)),
    s.destructors_ = pre ++ mid ++ post → (nodeIds (pre ++ mid)).Nodup →
    (∀ x ∈ mid, x.2.inert = true) →
    runLoop (mid.length + f) s (listBegin (mid ++ post)) trace =
      runLoop f { s with effects := s.effects ++ listTags mid } (listBegin post)
        (trace ++ mid) := by
  intro mid
  induction mid with
  | nil => intro pre post s f trace _ _ _; simp [listTags]
  | cons x xs ih =>
    intro pre post s f trace hs hnd hin
    obtain ⟨id, c⟩ := x
    have hid : id ∉ nodeIds pre := by
      simp only [nodeIds, List.map_append, List.map_cons] at hnd ⊢
      have := List.nodup_append.mp hnd
      intro hmem
      exact this.2.2 hmem (List.mem_cons_self _ _)
    have hs2 : s.destructors_ = pre ++ (id, c) :: (xs ++ post) := by
      rw [hs]; simp
    have hd : deref s.destructors_ id = some c := by
      rw [hs2]; exact deref_append_cons pre _ id c hid
    have hn : listNext s.destructors_ id = listBegin (xs ++ post) := by
      rw [hs2]; exact listNext_append_cons pre _ id c hid
    have hc : c.inert = true := hin (id, c) (List.mem_cons_self _ _)
    have hfuel : ((id, c) :: xs).length + f = (xs.length + f) + 1 := by
      simp only [List.length_cons]; omega
    have hb : listBegin ((id, c) :: xs ++ post) = some id := rfl
    rw [hfuel, hb]
    simp only [runLoop, hd, hn, Run_inert c s hc]
    have := ih (pre ++ [(id, c)]) post { s with effects := s.effects ++ c.tags } f
      (trace ++ [(id, c)]) (by simp [hs]) (by simpa using hnd)
      (fun y hy => hin y (List.mem_cons_of_mem _ hy))
    rw [this]
    simp [listTags]

theorem nodeIds_zip (n : Nat) (cbs : List Closure) :
    nodeIds ((List.range' n cbs.length).zip cbs) = List.range' n cbs.length := by
  unfold nodeIds
  rw [List.map_fst_zip]
  simp

theorem snd_zip (n : Nat) (cbs : List Closure) :
    ((List.range' n cbs.length).zip cbs).map Prod.snd = cbs := by
  rw [List.map_snd_zip]
  simp

theorem inert_zip (ids : List NodeId) (cbs : List Closure) (h : ∀ c ∈ cbs, c.inert = true) :
    ∀ x ∈ ids.zip cbs, x.2.inert = true := by
  intro x hx
  obtain ⟨i, c⟩ := x
  exact h c (List.of_mem_zip hx).2

theorem listTags_zip : ∀ (cbs : List Closure) (n : Nat),
    listTags ((List.range' n cbs.length).zip cbs) = allTags cbs := by
  intro cbs
  induction cbs with
  | nil => intro n; rfl
  | cons c cs ih =>
    intro n
    rw [List.length_cons, List.range'_succ, List.zip_cons_cons]
    simp only [listTags, allTags, ih]

theorem registerAll_init (heap : Addr → Int) (cbs : List Closure) :
    (registerAll cbs (AtomBrowserMainParts.init heap)).1 = List.range cbs.length ∧
    (registerAll cbs (AtomBrowserMainParts.init heap)).2 =
      { exit_code_ := none, destructors_ := (List.range cbs.length).zip cbs, heap := heap,
        next_node := cbs.length, effects := [] } := by
  have h := registerAll_spec cbs (AtomBrowserMainParts.init heap)
  rw [h.1, h.2]
  simp [AtomBrowserMainParts.init, List.range_eq_range']

/-- C1. When none of the registered callbacks runs a token or registers a
callback, the run-all loop finishes without fault, and the callbacks it ran
are, in this order, exactly the registered ones: node `i` (the `i`-th call of
`RegisterDestructionCallback`) holding the `i`-th closure, once each; their
side effects happen in the same order. -/
theorem run_all_in_registration_order (heap : Addr → Int) (cbs : List Closure)
    (h : ∀ c ∈ cbs, c.inert = true) :
    (registerAll cbs (AtomBrowserMainParts.init heap)).1 = List.range cbs.length ∧
    (registerAll cbs (AtomBrowserMainParts.init heap)).2.destructors_ =
      (List.range cbs.length).zip cbs ∧
    (PostMainMessageLoopRun (registerAll cbs (AtomBrowserMainParts.init heap)).2).trace =
      (List.range cbs.length).zip cbs ∧
    (PostMainMessageLoopRun (registerAll cbs (AtomBrowserMainParts.init heap)).2).trace.map
      Prod.snd = cbs ∧
    (PostMainMessageLoopRun (registerAll cbs (AtomBrowserMainParts.init heap)).2).result =
      .ok { (registerAll cbs (AtomBrowserMainParts.init heap)).2 with effects := allTags cbs } := by
  have hr := registerAll_init heap cbs
  have hin := inert_zip (List.range cbs.length) cbs h
  have hrun : PostMainMessageLoopRun (registerAll cbs (AtomBrowserMainParts.init heap)).2 =
      { trace := (List.range cbs.length).zip cbs,
        result := .ok { (registerAll cbs (AtomBrowserMainParts.init heap)).2 with
                        effects := allTags cbs } } := by
    rw [hr.2]
    unfold PostMainMessageLoopRun
    simp only
    rw [listWeight_inert _ hin]
    have hseg := runLoop_inert_segment ((List.range cbs.length).zip cbs) [] []
      { exit_code_ := none, destructors_ := (List.range cbs.length).zip cbs, heap := heap,
        next_node := cbs.length, effects := [] } 1 [] (by simp)
      (by rw [List.nil_append, List.range_eq_range', nodeIds_zip]; exact List.nodup_range' _ _)
      hin
    rw [List.append_nil] at hseg
    rw [hseg]
    simp [runLoop, listBegin, List.range_eq_range', listTags_zip]
  rw [hrun]
  refine ⟨hr.1, by rw [hr.2], rfl, ?_, rfl⟩
  simp only [List.range_eq_range']
  exact snd_zip 0 cbs

/-- Witness for C1: three callbacks with side effects 10; 20, 21; none. -/
theorem run_all_in_registration_order_witness :
    ([Closure.effect 10 .ret, .effect 20 (.effect 21 .ret), .ret].all Closure.inert = true) ∧
    (PostMainMessageLoopRun (registerAll
        [Closure.effect 10 .ret, .effect 20 (.effect 21 .ret), .ret]
        (AtomBrowserMainParts.init (fun _ => 0))).2).trace =
      [(0, .effect 10 .ret), (1, .effect 20 (.effect 21 .ret)), (2, .ret)] :=
  ⟨by decide,
   (run_all_in_registration_order (fun _ => 0)
      [Closure.effect 10 .ret, .effect 20 (.effect 21 .ret), .ret] (by decide)).2.2.1⟩

theorem zip_range_append : ∀ (xs ys : List Closure) (n : Nat),
    (List.range' n (xs ++ ys).length).zip (xs ++ ys) =
      (List.range' n xs.length).zip xs ++ (List.range' (n + xs.length) ys.length).zip ys := by
  intro xs
  induction xs with
  | nil => intro ys n; simp
  | cons x xs ih =>
    intro ys n
    rw [List.cons_append, List.length_cons, List.length_cons, List.range'_succ,
      List.range'_succ, List.zip_cons_cons, List.zip_cons_cons, ih ys (n + 1)]
    simp [Nat.add_assoc, Nat.add_comm 1]

theorem allTags_append (xs ys : List Closure) :
    allTags (xs ++ ys) = allTags xs ++ allTags ys := by
  induction xs with
  | nil => rfl
  | cons x xs ih => simp [allTags, ih]

theorem runLoop_end (f : Nat) (s : AtomBrowserMainParts) (trace : List (NodeId × Closure)) :
    runLoop (f + 1) s none trace = { trace := trace, result := .ok s } := rfl

theorem listBegin_append (xs ys : List (NodeId × Closure)) (h : xs ≠ []) :
    listBegin (xs ++ ys) = listBegin xs := by
  cases xs with
  | nil => exact absurd rfl h
  | cons x xs => rfl

theorem inert_of_noToken (c : Closure) :
    c.noToken = true → c.registers = [] → c.inert = true := by
  induction c with
  | ret => intro _ _; rfl
  | effect tag k ih => intro h1 h2; exact ih h1 h2
  | runToken id k _ => intro h1 _; simp [Closure.noToken] at h1
  | registerCb c k _ _ => intro _ h2; simp [Closure.registers] at h2

/-- A closure that runs no token and registers exactly `c1` appends one node
holding `c1` and leaves the rest of the list as it is. -/
theorem Run_registers_one (K c1 : Closure) : ∀ (s : AtomBrowserMainParts),
    K.noToken = true → K.registers = [c1] →
    K.Run s = .ok { s with destructors_ := s.destructors_ ++ [(s.next_node, c1)],
                           next_node := s.next_node + 1,
                           effects := s.effects ++ K.tags } := by
  induction K with
  | ret => intro s _ h2; simp [Closure.registers] at h2
  | effect tag k ih =>
    intro s h1 h2
    simp only [Closure.Run, Closure.tags]
    rw [ih _ h1 h2]
    simp
  | runToken id k _ => intro s h1 _; simp [Closure.noToken] at h1
  | registerCb c k _ _ =>
    intro s h1 h2
    simp only [Closure.registers, List.cons.injEq] at h2
    have hk : k.inert = true := inert_of_noToken k h1 h2.2
    simp only [Closure.Run, Closure.tags, RegisterDestructionCallback, Run_inert k _ hk, h2.1]

theorem weight_registers_one (K c1 : Closure) :
    K.noToken = true → K.registers = [c1] → K.weight = c1.weight + 1 := by
  induction K with
  | ret => intro _ h2; simp [Closure.registers] at h2
  | effect tag k ih => intro h1 h2; exact ih h1 h2
  | runToken id k _ => intro h1 _; simp [Closure.noToken] at h1
  | registerCb c k _ _ =>
    intro h1 h2
    simp only [Closure.registers, List.cons.injEq] at h2
    have hk : k.inert = true := inert_of_noToken k h1 h2.2
    simp only [Closure.weight, weight_inert k hk, h2.1]

/-- The loop up to and including a callback `K` that registers a new closure
`c1`, the callbacks before it leaving the registry alone: the new node is
appended, and the loop goes on at the node that followed the callback when it
was started. -/
theorem runLoop_upto_register (PA PB : List (NodeId × Closure)) (k : NodeId)
    (K c1 : Closure) (s : AtomBrowserMainParts) (f : Nat)
    (hs : s.destructors_ = PA ++ (k, K) :: PB)
    (hnd : (nodeIds (PA ++ [(k, K)])).Nodup)
    (hA : ∀ x ∈ PA, x.2.inert = true)
    (hK1 : K.noToken = true) (hK2 : K.registers = [c1]) :
    runLoop (PA.length + (f + 1)) s (listBegin s.destructors_) [] =
      runLoop f
        { s with destructors_ := s.destructors_ ++ [(s.next_node, c1)],
                 next_node := s.next_node + 1,
                 effects := s.effects ++ listTags PA ++ K.tags }
        (listBegin PB) (PA ++ [(k, K)]) := by
  have hk : k ∉ nodeIds PA := by
    simp only [nodeIds, List.map_append, List.map_cons, List.map_nil] at hnd ⊢
    have := List.nodup_append.mp hnd
    intro hmem
    exact this.2.2 hmem (List.mem_cons_self _ _)
  have hseg := runLoop_inert_segment PA [] ((k, K) :: PB) s (f + 1) []
    (by simp [hs]) (by
      simp only [nodeIds, List.map_append] at hnd ⊢
      simpa using (List.nodup_append.mp hnd).1) hA
  rw [hs, hseg]
  have hb : listBegin ((k, K) :: PB) = some k := rfl
  rw [hb]
  have hd : deref (PA ++ (k, K) :: PB) k = some K := deref_append_cons PA PB k _ hk
  have hn : listNext (PA ++ (k, K) :: PB) k = listBegin PB :=
    listNext_append_cons PA PB k _ hk
  simp only [runLoop, hs, hd, hn, Run_registers_one K c1 _ hK1 hK2, List.nil_append]

theorem registered_eq (heap : Addr → Int) (cbs : List Closure) :
    registered heap cbs =
      { exit_code_ := none, destructors_ := (List.range' 0 cbs.length).zip cbs, heap := heap,
        next_node := cbs.length, effects := [] } := by
  unfold registered
  rw [(registerAll_init heap cbs).2, List.range_eq_range']

theorem nodup_nodeIds_zip_concat (n : Nat) (cbs : List Closure) (c : Closure) :
    (nodeIds ((List.range' n cbs.length).zip cbs ++ [(n + cbs.length, c)])).Nodup := by
  have h1 : nodeIds ((List.range' n cbs.length).zip cbs ++ [(n + cbs.length, c)])
      = List.range' n cbs.length ++ [n + cbs.length] := by
    have := nodeIds_zip n cbs
    unfold nodeIds at this ⊢
    rw [List.map_append, this]; rfl
  rw [h1, List.nodup_append]
  refine ⟨List.nodup_range' _ _, List.nodup_singleton _, ?_⟩
  intro a ha hb
  rw [List.mem_singleton] at hb
  rw [List.mem_range'_1] at ha
  exact absurd hb (Nat.ne_of_lt ha.2)

/-- The pass over `A ++ [K] ++ B` where `K` registers `c1` and every other
closure leaves the registry alone. -/
theorem run_with_registering_callback (heap : Addr → Int) (A B : List Closure)
    (K c1 : Closure)
    (hA : ∀ c ∈ A, c.inert = true) (hB : ∀ c ∈ B, c.inert = true)
    (hc1 : c1.inert = true) (hK1 : K.noToken = true) (hK2 : K.registers = [c1]) :
    PostMainMessageLoopRun (registered heap (A ++ K :: B)) =
      { trace := (registered heap (A ++ K :: B)).destructors_ ++
          (if B = [] then [] else [((A ++ K :: B).length, c1)]),
        result := .ok
          { registered heap (A ++ K :: B) with
            destructors_ := (registered heap (A ++ K :: B)).destructors_
              ++ [((A ++ K :: B).length, c1)],
            next_node := (A ++ K :: B).length + 1,
            effects := allTags (A ++ K :: B) ++ (if B = [] then [] else c1.tags) } } := by
  obtain ⟨N, hN⟩ : ∃ N, N = (A ++ K :: B).length := ⟨_, rfl⟩
  obtain ⟨PA, hPA⟩ : ∃ PA, PA = (List.range' 0 A.length).zip A := ⟨_, rfl⟩
  obtain ⟨PB, hPB⟩ : ∃ PB, PB = (List.range' (A.length + 1) B.length).zip B := ⟨_, rfl⟩
  have hz : (List.range' 0 (A ++ K :: B).length).zip (A ++ K :: B) = PA ++ (A.length, K) :: PB := by
    rw [zip_range_append, List.length_cons, List.range'_succ, List.zip_cons_cons, hPA, hPB]
    simp
  have hlenB : PB.length = B.length := by rw [hPB]; simp
  have hinA : ∀ x ∈ PA, x.2.inert = true := by rw [hPA]; exact inert_zip _ A hA
  have hinB : ∀ x ∈ PB, x.2.inert = true := by rw [hPB]; exact inert_zip _ B hB
  have hndAll : (nodeIds (PA ++ (A.length, K) :: PB ++ [(N, c1)])).Nodup := by
    have := nodup_nodeIds_zip_concat 0 (A ++ K :: B) c1
    rw [hz, Nat.zero_add, ← hN] at this
    simpa using this
  have hnd1 : (nodeIds (PA ++ [(A.length, K)])).Nodup := by
    have h2 : PA ++ (A.length, K) :: PB ++ [(N, c1)]
        = (PA ++ [(A.length, K)]) ++ (PB ++ [(N, c1)]) := by simp
    rw [h2] at hndAll
    unfold nodeIds at hndAll ⊢
    rw [List.map_append] at hndAll
    exact (List.nodup_append.mp hndAll).1
  have htags : allTags (A ++ K :: B) = listTags PA ++ K.tags ++ listTags PB := by
    rw [allTags_append, hPA, hPB, listTags_zip, listTags_zip]
    simp [allTags]
  rw [registered_eq, hz, ← hN]
  unfold PostMainMessageLoopRun
  have hw : listWeight (PA ++ (A.length, K) :: PB) + 1
      = PA.length + ((PB.length + 1 + 1) + 1) := by
    rw [listWeight_append, listWeight, listWeight_inert PA hinA, listWeight_inert PB hinB,
      weight_registers_one K c1 hK1 hK2, weight_inert c1 hc1]
    omega
  simp only [hw]
  have hup := runLoop_upto_register PA PB A.length K c1
    { exit_code_ := none, destructors_ := PA ++ (A.length, K) :: PB, heap := heap,
      next_node := N, effects := [] } (PB.length + 1 + 1) rfl hnd1 hinA hK1 hK2
  simp only at hup
  rw [hup]
  cases B with
  | nil =>
    have hPB0 : PB = [] := by rw [hPB]; rfl
    subst hPB0
    simp [runLoop, listBegin, htags, listTags]
  | cons b B1 =>
    have hne : PB ≠ [] := by
      intro h0; rw [h0] at hlenB; simp at hlenB
    have hbeg : listBegin PB = listBegin ((PB ++ [(N, c1)]) ++ []) := by
      rw [List.append_nil, listBegin_append PB _ hne]
    have hseg := runLoop_inert_segment (PB ++ [(N, c1)]) (PA ++ [(A.length, K)]) []
      { exit_code_ := none, destructors_ := PA ++ (A.length, K) :: PB ++ [(N, c1)], heap := heap,
        next_node := N + 1, effects := [] ++ listTags PA ++ K.tags } 1
      (PA ++ [(A.length, K)]) (by simp) (by simpa using hndAll)
      (by
        intro x hx
        rcases List.mem_append.mp hx with h1 | h1
        · exact hinB x h1
        · rw [List.mem_singleton] at h1; rw [h1]; exact hc1)
    rw [List.length_append, List.length_singleton] at hseg
    rw [hbeg, hseg]
    simp [runLoop, listBegin, htags, listTags, listTags_append]

/-- C3 as stated fails for k = N: with a single registered callback (N = 1,
k = 1) that registers a new callback, the pass runs node 0 only; the new node
1 is in the list afterwards but was not executed in that pass. -/
theorem registered_by_last_not_run :
    (PostMainMessageLoopRun
        (registered (fun _ => 0) [Closure.registerCb (.effect 9 .ret) .ret])).trace
      = [(0, Closure.registerCb (.effect 9 .ret) .ret)] ∧
    ((1, Closure.effect 9 .ret) ∉
      (PostMainMessageLoopRun
        (registered (fun _ => 0) [Closure.registerCb (.effect 9 .ret) .ret])).trace) := by
  decide

/-- C3, amended. `N` callbacks are registered; the one at position `k`
(there are `k - 1` callbacks `A` before it and `N - k` callbacks `B` after it)
is a closure `K` that registers one new callback `c1` and runs no token, and no
other callback touches the registry. The pass ends without fault with `c1`
appended as node `N`. When `k < N` (`B` not empty) the pass runs the `N`
original callbacks in registration order and then `c1`. When `k = N` (`B`
empty) the pass runs the `N` original callbacks only: `c1` stays registered,
not executed. -/
theorem callback_registered_during_pass (heap : Addr → Int) (A B : List Closure)
    (K c1 : Closure)
    (hA : ∀ c ∈ A, c.inert = true) (hB : ∀ c ∈ B, c.inert = true)
    (hc1 : c1.inert = true) (hK1 : K.noToken = true) (hK2 : K.registers = [c1]) :
    (registered heap (A ++ K :: B)).destructors_ =
      (List.range (A ++ K :: B).length).zip (A ++ K :: B) ∧
    (B ≠ [] →
      (PostMainMessageLoopRun (registered heap (A ++ K :: B))).trace =
        (List.range (A ++ K :: B).length).zip (A ++ K :: B) ++ [((A ++ K :: B).length, c1)]) ∧
    (B = [] →
      (PostMainMessageLoopRun (registered heap (A ++ K :: B))).trace =
        (List.range (A ++ K :: B).length).zip (A ++ K :: B)) ∧
    (∃ s1,
      (PostMainMessageLoopRun (registered heap (A ++ K :: B))).result = .ok s1 ∧
      s1.destructors_ =
        (List.range (A ++ K :: B).length).zip (A ++ K :: B) ++ [((A ++ K :: B).length, c1)]) := by
  have hrun := run_with_registering_callback heap A B K c1 hA hB hc1 hK1 hK2
  have hd : (registered heap (A ++ K :: B)).destructors_ =
      (List.range (A ++ K :: B).length).zip (A ++ K :: B) := by
    rw [registered_eq, List.range_eq_range']
  rw [hrun]
  refine ⟨hd, ?_, ?_, ⟨_, rfl, ?_⟩⟩
  · intro hne; rw [if_neg hne, hd]
  · intro he; rw [if_pos he, List.append_nil]; exact hd
  · simp only [hd]

/-- Witness for C3 (amended): N = 3, the callback at position k = 2 has side
effect 7, registers a callback with side effect 9, then has side effect 8; the
pass runs nodes 0, 1, 2 and then the new node 3. -/
theorem callback_registered_during_pass_witness :
    ([Closure.effect 5 .ret] ≠ []) ∧
    (PostMainMessageLoopRun (registered (fun _ => 0)
        ([Closure.ret] ++
          Closure.effect 7 (.registerCb (.effect 9 .ret) (.effect 8 .ret)) ::
            [Closure.effect 5 .ret]))).trace
      = [(0, .ret), (1, .effect 7 (.registerCb (.effect 9 .ret) (.effect 8 .ret))),
         (2, .effect 5 .ret), (3, .effect 9 .ret)] :=
  ⟨by decide,
   (callback_registered_during_pass (fun _ => 0) [Closure.ret] [Closure.effect 5 .ret]
      (.effect 7 (.registerCb (.effect 9 .ret) (.effect 8 .ret))) (.effect 9 .ret)
      (by decide) (by decide) rfl rfl rfl).2.1 (by decide)⟩

theorem nodeIds_listErase_subset (l : List (NodeId × Closure)) (id x : NodeId)
    (h : x ∈ nodeIds (listErase l id)) : x ∈ nodeIds l := by
  induction l with
  | nil => simp [listErase, nodeIds] at h
  | cons y ys ih =>
    obtain ⟨i, d⟩ := y
    unfold listErase at h
    split at h
    · simp only [nodeIds, List.map_cons, List.mem_cons] at h ⊢
      exact Or.inr h
    · simp only [nodeIds, List.map_cons, List.mem_cons] at h ih ⊢
      rcases h with h | h
      · exact Or.inl h
      · exact Or.inr (ih h)

theorem not_mem_listErase (l : List (NodeId × Closure)) (id : NodeId)
    (h : (nodeIds l).Nodup) : id ∉ nodeIds (listErase l id) := by
  induction l with
  | nil => simp [listErase, nodeIds]
  | cons y ys ih =>
    obtain ⟨i, d⟩ := y
    simp only [nodeIds, List.map_cons, List.nodup_cons] at h
    unfold listErase
    split
    · rename_i he
      rw [← he]; exact h.1
    · rename_i hne
      simp only [nodeIds, List.map_cons, List.mem_cons, not_or]
      exact ⟨fun e => hne e.symm, ih h.2⟩

theorem nodup_nodeIds_zip (n : Nat) (cbs : List Closure) :
    (nodeIds ((List.range' n cbs.length).zip cbs)).Nodup := by
  rw [nodeIds_zip]; exact List.nodup_range' _ _

/-- The pass over `A ++ [K, c2] ++ B` where `K` runs the token of the callback
registered right after it: the loop has already advanced its iterator to that
node when `K` erases it, and the next use of the iterator is a fault. -/
theorem run_with_cancel_next (heap : Addr → Int) (A B : List Closure) (rest c2 : Closure)
    (hA : ∀ c ∈ A, c.inert = true) (hrest : rest.inert = true) :
    PostMainMessageLoopRun
        (registered heap (A ++ Closure.runToken (A.length + 1) rest :: c2 :: B)) =
      { trace := (List.range (A.length + 1)).zip (A ++ [Closure.runToken (A.length + 1) rest]),
        result := .error (.invalid_iterator (A.length + 1)) } := by
  obtain ⟨K, hK⟩ : ∃ K, K = Closure.runToken (A.length + 1) rest := ⟨_, rfl⟩
  obtain ⟨PA, hPA⟩ : ∃ PA, PA = (List.range' 0 A.length).zip A := ⟨_, rfl⟩
  obtain ⟨PB, hPB⟩ : ∃ PB, PB = (List.range' (A.length + 1 + 1) B.length).zip B := ⟨_, rfl⟩
  have hz : (List.range' 0 (A ++ K :: c2 :: B).length).zip (A ++ K :: c2 :: B)
      = PA ++ (A.length, K) :: (A.length + 1, c2) :: PB := by
    rw [zip_range_append, List.length_cons, List.length_cons, List.range'_succ,
      List.range'_succ, List.zip_cons_cons, List.zip_cons_cons, hPA, hPB]
    simp
  have hz1 : (List.range (A.length + 1)).zip (A ++ [K]) = PA ++ [(A.length, K)] := by
    have h1 : A.length + 1 = (A ++ [K]).length := by simp
    rw [List.range_eq_range', h1, zip_range_append, hPA]
    simp
  have hinA : ∀ x ∈ PA, x.2.inert = true := by rw [hPA]; exact inert_zip _ A hA
  have hnd : (nodeIds (PA ++ (A.length, K) :: (A.length + 1, c2) :: PB)).Nodup := by
    rw [← hz]; exact nodup_nodeIds_zip 0 _
  have hndA : (nodeIds ([] ++ PA)).Nodup := by
    rw [List.nil_append, hPA]; exact nodup_nodeIds_zip 0 A
  have hk : A.length ∉ nodeIds PA := by
    rw [hPA, nodeIds_zip, List.mem_range'_1]; omega
  have hmem : A.length + 1 ∈ nodeIds (PA ++ (A.length, K) :: (A.length + 1, c2) :: PB) := by
    simp [nodeIds]
  obtain ⟨g, hg⟩ : ∃ g, listWeight (PA ++ (A.length, K) :: (A.length + 1, c2) :: PB) + 1
      = PA.length + ((g + 1) + 1) := by
    refine ⟨c2.weight + listWeight PB, ?_⟩
    rw [listWeight_append, listWeight, listWeight, listWeight_inert PA hinA, hK]
    simp only [Closure.weight, weight_inert rest hrest]
    omega
  rw [← hK, registered_eq, hz, hz1]
  unfold PostMainMessageLoopRun
  simp only [hg]
  have hseg := runLoop_inert_segment PA [] ((A.length, K) :: (A.length + 1, c2) :: PB)
    { exit_code_ := none, destructors_ := PA ++ (A.length, K) :: (A.length + 1, c2) :: PB,
      heap := heap, next_node := (A ++ K :: c2 :: B).length, effects := [] } ((g + 1) + 1) []
    (by simp) hndA hinA
  rw [hseg]
  have hb : listBegin ((A.length, K) :: (A.length + 1, c2) :: PB) = some A.length := rfl
  have hd : deref (PA ++ (A.length, K) :: (A.length + 1, c2) :: PB) A.length = some K :=
    deref_append_cons PA _ _ K hk
  have hn : listNext (PA ++ (A.length, K) :: (A.length + 1, c2) :: PB) A.length
      = some (A.length + 1) := by
    rw [listNext_append_cons PA _ _ K hk]; rfl
  have hgone : deref (listErase (PA ++ (A.length, K) :: (A.length + 1, c2) :: PB)
      (A.length + 1)) (A.length + 1) = none :=
    deref_not_mem _ _ (not_mem_listErase _ _ hnd)
  rw [hb]
  subst hK
  simp only [runLoop, hd, hn, Closure.Run, Erase, hmem, if_true, Run_inert rest _ hrest, hgone,
    List.nil_append]

/-- C2, on the code: callback `k` (with `k - 1` callbacks `A` before it)
runs the token of callback `k+1` (`c2`). The tokens are the node identities in
registration order, so that token is node `A.length + 1`. The pass runs the
callbacks up to `k`, then stops on the iterator that still points to the
erased node `k+1`: the erased entry is accessed, and the callbacks `B` behind
it are not run. -/
theorem cancel_next_invalidates_iterator (heap : Addr → Int) (A B : List Closure)
    (rest c2 : Closure) (hA : ∀ c ∈ A, c.inert = true) (hrest : rest.inert = true) :
    (registerAll (A ++ Closure.runToken (A.length + 1) rest :: c2 :: B)
        (AtomBrowserMainParts.init heap)).1 =
      List.range (A ++ Closure.runToken (A.length + 1) rest :: c2 :: B).length ∧
    (PostMainMessageLoopRun
        (registered heap (A ++ Closure.runToken (A.length + 1) rest :: c2 :: B))).trace =
      (List.range (A.length + 1)).zip (A ++ [Closure.runToken (A.length + 1) rest]) ∧
    (PostMainMessageLoopRun
        (registered heap (A ++ Closure.runToken (A.length + 1) rest :: c2 :: B))).result =
      .error (.invalid_iterator (A.length + 1)) := by
  rw [run_with_cancel_next heap A B rest c2 hA hrest]
  exact ⟨(registerAll_init heap _).1, rfl, rfl⟩

/-- Witness for C2: four callbacks, the second runs the token of the third;
the pass stops on the iterator to the erased node 2, and the fourth callback
is never run. -/
theorem cancel_next_invalidates_iterator_witness :
    ([Closure.effect 1 .ret].all Closure.inert = true) ∧
    (PostMainMessageLoopRun
        (registered (fun _ => 0)
          ([Closure.effect 1 .ret] ++
            Closure.runToken ([Closure.effect 1 .ret].length + 1) .ret ::
              .effect 3 .ret :: [.effect 4 .ret]))).result =
      .error (.invalid_iterator ([Closure.effect 1 .ret].length + 1)) :=
  ⟨by decide,
   (cancel_next_invalidates_iterator (fun _ => 0) [Closure.effect 1 .ret] [.effect 4 .ret]
      .ret (.effect 3 .ret) (by decide) rfl).2.2⟩

theorem deref_some_mem (l : List (NodeId × Closure)) (id : NodeId) (c : Closure)
    (h : deref l id = some c) : id ∈ nodeIds l := by
  by_cases hm : id ∈ nodeIds l
  · exact hm
  · rw [deref_not_mem l id hm] at h; cases h

/-- A node that is not in the list and whose identity has been handed out
already never comes back: no operation of a closure inserts it. -/
theorem Run_keeps_absent (id0 : NodeId) (c : Closure) : ∀ (s s1 : AtomBrowserMainParts),
    c.Run s = .ok s1 → id0 ∉ nodeIds s.destructors_ → id0 < s.next_node →
    id0 ∉ nodeIds s1.destructors_ ∧ id0 < s1.next_node := by
  induction c with
  | ret => intro s s1 h h1 h2; simp [Closure.Run] at h; subst h; exact ⟨h1, h2⟩
  | effect tag k ih =>
    intro s s1 h h1 h2
    simp only [Closure.Run] at h
    exact ih _ _ h h1 h2
  | runToken id k ih =>
    intro s s1 h h1 h2
    simp only [Closure.Run] at h
    cases he : Erase id s with
    | error f => rw [he] at h; cases h
    | ok s2 =>
      rw [he] at h
      unfold Erase at he
      split at he
      · cases he
        exact ih _ _ h (fun hm => h1 (nodeIds_listErase_subset _ _ _ hm)) h2
      · cases he
  | registerCb c k _ ih =>
    intro s s1 h h1 h2
    simp only [Closure.Run] at h
    refine ih _ _ h ?_ ?_
    · simp only [RegisterDestructionCallback, nodeIds, List.map_append, List.map_cons,
        List.map_nil, List.mem_append, List.mem_singleton, not_or]
      exact ⟨h1, Nat.ne_of_lt h2⟩
    · exact Nat.lt_succ_of_lt h2

theorem runLoop_never_runs_absent (id0 : NodeId) : ∀ (fuel : Nat) (s : AtomBrowserMainParts)
    (iter : Option NodeId) (trace : List (NodeId × Closure)),
    id0 ∉ nodeIds s.destructors_ → id0 < s.next_node →
    ∀ x ∈ (runLoop fuel s iter trace).trace, x ∈ trace ∨ x.1 ≠ id0 := by
  intro fuel
  induction fuel with
  | zero => intro s iter trace _ _ x hx; exact Or.inl hx
  | succ n ih =>
    intro s iter trace h1 h2 x hx
    cases iter with
    | none => exact Or.inl hx
    | some id =>
      simp only [runLoop] at hx
      cases hd : deref s.destructors_ id with
      | none => rw [hd] at hx; exact Or.inl hx
      | some cb =>
        rw [hd] at hx
        simp only at hx
        have hne : id ≠ id0 := by
          intro e
          exact h1 (e ▸ deref_some_mem _ _ _ hd)
        cases hr : cb.Run s with
        | error f =>
          rw [hr] at hx
          simp only [List.mem_append, List.mem_singleton] at hx
          rcases hx with hx | hx
          · exact Or.inl hx
          · right; rw [hx]; exact hne
        | ok s2 =>
          rw [hr] at hx
          have hk := Run_keeps_absent id0 cb s s2 hr h1 h2
          rcases ih s2 _ _ hk.1 hk.2 x hx with h | h
          · simp only [List.mem_append, List.mem_singleton] at h
            rcases h with h | h
            · exact Or.inl h
            · right; rw [h]; exact hne
          · exact Or.inr h

theorem map_snd_eraseIdx : ∀ (l : List (NodeId × Closure)) (i : Nat),
    (l.eraseIdx i).map Prod.snd = (l.map Prod.snd).eraseIdx i := by
  intro l
  induction l with
  | nil => intro i; rfl
  | cons x xs ih =>
    intro i
    cases i with
    | zero => rfl
    | succ j => simp [ih j]

theorem listErase_zip : ∀ (cbs : List Closure) (n i : Nat), i < cbs.length →
    listErase ((List.range' n cbs.length).zip cbs) (n + i) =
      ((List.range' n cbs.length).zip cbs).eraseIdx i := by
  intro cbs
  induction cbs with
  | nil => intro n i h; simp at h
  | cons c cs ih =>
    intro n i h
    rw [List.length_cons, List.range'_succ, List.zip_cons_cons]
    cases i with
    | zero => simp [listErase]
    | succ j =>
      have hne : ¬ n = n + (j + 1) := by omega
      have hj : j < cs.length := by simpa using h
      have := ih (n + 1) j hj
      have e : n + 1 + j = n + (j + 1) := by omega
      rw [e] at this
      simp only [listErase, hne, if_false, List.eraseIdx_cons_succ, this]

theorem registerAll_keeps_absent (id0 : NodeId) (more : List Closure) (s : AtomBrowserMainParts)
    (h1 : id0 ∉ nodeIds s.destructors_) (h2 : id0 < s.next_node) :
    id0 ∉ nodeIds (registerAll more s).2.destructors_ ∧ id0 < (registerAll more s).2.next_node := by
  rw [(registerAll_spec more s).2]
  constructor
  · have : nodeIds (s.destructors_ ++ (List.range' s.next_node more.length).zip more)
        = nodeIds s.destructors_ ++ List.range' s.next_node more.length := by
      have := nodeIds_zip s.next_node more
      unfold nodeIds at this ⊢
      rw [List.map_append, this]
    simp only [this, List.mem_append, not_or, List.mem_range'_1]
    exact ⟨h1, fun h => absurd h.1 (Nat.not_le_of_lt h2)⟩
  · exact Nat.lt_of_lt_of_le h2 (Nat.le_add_right _ _)

/-- C4. After registering `cbs`, the token returned by the `i`-th call is node
`i`; running it before the pass succeeds and changes the list only: the list
becomes the old one with the entry at position `i` dropped (the other entries
as they were, in their order). Whatever is registered afterwards (`more`), a
later pass never runs node `i`. -/
theorem token_removes_exactly_its_entry (heap : Addr → Int) (cbs more : List Closure)
    (i : Nat) (hi : i < cbs.length) :
    (registerAll cbs (AtomBrowserMainParts.init heap)).1[i]? = some i ∧
    Erase i (registered heap cbs) =
      .ok { registered heap cbs with
            destructors_ := (registered heap cbs).destructors_.eraseIdx i } ∧
    ((registered heap cbs).destructors_.eraseIdx i).map Prod.snd = cbs.eraseIdx i ∧
    ∀ x ∈ (PostMainMessageLoopRun (registerAll more
        { registered heap cbs with
          destructors_ := (registered heap cbs).destructors_.eraseIdx i }).2).trace,
      x.1 ≠ i := by
  have hmem : i ∈ nodeIds ((List.range' 0 cbs.length).zip cbs) := by
    rw [nodeIds_zip, List.mem_range'_1]; omega
  have hE : listErase ((List.range' 0 cbs.length).zip cbs) i
      = ((List.range' 0 cbs.length).zip cbs).eraseIdx i := by
    have := listErase_zip cbs 0 i hi
    rwa [Nat.zero_add] at this
  refine ⟨?_, ?_, ?_, ?_⟩
  · rw [(registerAll_init heap cbs).1]
    simp [hi]
  · rw [registered_eq]
    simp only [Erase, hmem, if_true, hE]
  · rw [registered_eq, map_snd_eraseIdx, snd_zip]
  · intro x hx
    have habs : i ∉ nodeIds (((List.range' 0 cbs.length).zip cbs).eraseIdx i) := by
      rw [← hE]; exact not_mem_listErase _ _ (nodup_nodeIds_zip 0 cbs)
    rw [registered_eq] at hx
    have hk := registerAll_keeps_absent i more
      { exit_code_ := none, destructors_ := ((List.range' 0 cbs.length).zip cbs).eraseIdx i,
        heap := heap, next_node := cbs.length, effects := [] } habs hi
    rcases runLoop_never_runs_absent i _ _ _ _ hk.1 hk.2 x hx with h | h
    · simp at h
    · exact h

/-- Witness for C4: three callbacks, the token of the middle one is run, one
more callback is registered, then the pass runs. -/
theorem token_removes_exactly_its_entry_witness :
    (1 < [Closure.effect 10 .ret, .effect 11 .ret, .effect 12 .ret].length) ∧
    Erase 1 (registered (fun _ => 0) [Closure.effect 10 .ret, .effect 11 .ret, .effect 12 .ret]) =
      .ok { registered (fun _ => 0) [Closure.effect 10 .ret, .effect 11 .ret, .effect 12 .ret] with
            destructors_ :=
              (registered (fun _ => 0)
                [Closure.effect 10 .ret, .effect 11 .ret, .effect 12 .ret]).destructors_.eraseIdx
                1 } :=
  ⟨by decide,
   (token_removes_exactly_its_entry (fun _ => 0)
      [Closure.effect 10 .ret, .effect 11 .ret, .effect 12 .ret] [Closure.ret] 1
      (by decide)).2.1⟩

/-! ## Window registry -/

/-- The loop of `std::remove` keeps, before its write position, the elements
read so far that differ from `value`, in their order. -/
theorem removeLoop_spec (value : NativeWindow) (orig : List NativeWindow) :
    ∀ (n : Nat) (v : List NativeWindow) (first i : Nat),
    i + n = orig.length → v.length = orig.length → first ≤ i →
    v.take first = (orig.take i).filter (fun x => x != value) →
    v.drop i = orig.drop i →
    (removeLoop value n v first i).1.take (removeLoop value n v first i).2 =
      orig.filter (fun x => x != value) := by
  intro n
  induction n with
  | zero =>
    intro v first i hi _ _ htake _
    have : i = orig.length := by omega
    subst this
    simpa [removeLoop] using htake
  | succ n ih =>
    intro v first i hi hlen hle htake hdrop
    have hlt : i < orig.length := by omega
    have hltv : i < v.length := by omega
    have hx : v[i]? = some orig[i] := by
      have h1 : (v.drop i)[0]? = (orig.drop i)[0]? := by rw [hdrop]
      rw [List.getElem?_drop, List.getElem?_drop, Nat.add_zero] at h1
      rw [h1, List.getElem?_eq_getElem hlt]
    have hdrop1 : v.drop (i + 1) = orig.drop (i + 1) := by
      have h1 : (v.drop i).drop 1 = (orig.drop i).drop 1 := by rw [hdrop]
      rw [List.drop_drop, List.drop_drop] at h1
      exact h1
    have htk : orig.take (i + 1) = orig.take i ++ [orig[i]] := by
      rw [List.take_succ, List.getElem?_eq_getElem hlt]; rfl
    simp only [removeLoop, hx]
    split
    · rename_i heq
      apply ih v first (i + 1) (by omega) hlen (by omega) _ hdrop1
      rw [htk, List.filter_append, htake]
      simp [heq]
    · rename_i hne
      have hfl : first < v.length := by omega
      apply ih (v.set first orig[i]) (first + 1) (i + 1) (by omega) (by simpa using hlen)
        (by omega)
      · rw [htk, List.filter_append, ← htake, List.take_succ, List.set_take]
        have h2 : ((v.take first).set first orig[i]) = v.take first := by
          apply List.set_eq_of_length_le
          simp
        rw [h2]
        have h3 : (v.set first orig[i])[first]? = some orig[i] := by
          simp [hfl]
        rw [h3]
        simp [hne]
      · rw [List.drop_set_of_lt _ _ (by omega)]
        exact hdrop1

/-- The erase-remove idiom of `RemoveWindow` drops every occurrence of the
window and keeps the other windows in their order. -/
theorem erase_remove_eq_filter (v : List NativeWindow) (value : NativeWindow) :
    vectorEraseToEnd (stdRemove v value).1 (stdRemove v value).2 =
      v.filter (fun x => x != value) := by
  unfold vectorEraseToEnd stdRemove
  exact removeLoop_spec value v v.length v 0 0 (by simp) rfl (Nat.le_refl _) (by simp) rfl

theorem GetInstance_windows (s : WindowList) : s.GetInstance.windows_ = s.windows_ := by
  cases h : s.instance_ <;> simp [WindowList.GetInstance, WindowList.windows_, h]

theorem GetInstance_observers (s : WindowList) : s.GetInstance.observers_ = s.observers_ := by
  cases h : s.instance_ <;> simp [WindowList.GetInstance, h]

theorem GetInstance_delivered (s : WindowList) : s.GetInstance.delivered = s.delivered := by
  cases h : s.instance_ <;> simp [WindowList.GetInstance, h]

theorem RemoveWindow_eq (w : NativeWindow) (s : WindowList) :
    s.RemoveWindow w =
      if s.windows_.filter (fun x => x != w) = [] then
        { instance_ := some (s.windows_.filter (fun x => x != w)),
          observers_ := s.observers_,
          delivered := s.delivered ++
            s.observers_.map (fun o => (o, WindowEvent.OnWindowRemoved w)) ++
            s.observers_.map (fun o => (o, WindowEvent.OnWindowAllClosed)) }
      else
        { instance_ := some (s.windows_.filter (fun x => x != w)),
          observers_ := s.observers_,
          delivered := s.delivered ++
            s.observers_.map (fun o => (o, WindowEvent.OnWindowRemoved w)) } := by
  unfold WindowList.RemoveWindow
  simp only [erase_remove_eq_filter, GetInstance_windows, WindowList.notify,
    GetInstance_observers, GetInstance_delivered]
  simp only [WindowList.windows_, List.length_eq_zero]

/-- C8. `RemoveWindow(w)` leaves the window sequence equal to the old one
without any occurrence of `w`, the other windows in their order; it leaves the
observers as they were; it delivers `OnWindowRemoved(w)` to every observer,
whether `w` was in the sequence or not, and after that `OnWindowAllClosed()` to
every observer exactly when the resulting sequence is empty. -/
theorem RemoveWindow_spec (w : NativeWindow) (s : WindowList) :
    (s.RemoveWindow w).windows_ = s.windows_.filter (fun x => x != w) ∧
    (s.RemoveWindow w).observers_ = s.observers_ ∧
    (s.RemoveWindow w).delivered =
      s.delivered ++ s.observers_.map (fun o => (o, WindowEvent.OnWindowRemoved w)) ++
        (if s.windows_.filter (fun x => x != w) = [] then
          s.observers_.map (fun o => (o, WindowEvent.OnWindowAllClosed))
         else []) := by
  rw [RemoveWindow_eq]
  split
  · exact ⟨rfl, rfl, rfl⟩
  · exact ⟨rfl, rfl, (List.append_nil _).symm⟩

theorem AddWindow_eq (w : NativeWindow) (s : WindowList) :
    s.AddWindow w =
      { instance_ := some (s.windows_ ++ [w]),
        observers_ := s.observers_,
        delivered := s.delivered ++ s.observers_.map (fun o => (o, WindowEvent.OnWindowAdded w)) } := by
  unfold WindowList.AddWindow
  simp only [GetInstance_windows, WindowList.notify, GetInstance_observers,
    GetInstance_delivered]

theorem AddObserver_nodup (o : Observer) (s : WindowList) (h : s.observers_.Nodup) :
    (s.AddObserver o).observers_.Nodup := by
  unfold WindowList.AddObserver
  split
  · exact h
  · rename_i hn
    simp only [List.nodup_append, List.nodup_singleton, true_and]
    exact ⟨h, fun a ha hb => hn (List.mem_singleton.mp hb ▸ ha)⟩

theorem eventsOf_append (o : Observer) (xs ys : List (Observer × WindowEvent)) :
    eventsOf o (xs ++ ys) = eventsOf o xs ++ eventsOf o ys := by
  simp [eventsOf]

theorem eventsOf_notify_not_mem (o : Observer) (ev : WindowEvent) (obs : List Observer)
    (h : o ∉ obs) : eventsOf o (obs.map (fun p => (p, ev))) = [] := by
  induction obs with
  | nil => rfl
  | cons p ps ih =>
    simp only [List.mem_cons, not_or] at h
    have hne : ¬ p = o := fun e => h.1 e.symm
    simp only [eventsOf, List.map_cons, List.filter_cons, hne, decide_False] at ih ⊢
    exact ih h.2

/-- One round of notification delivers the event once to a subscribed
observer. -/
theorem eventsOf_notify (o : Observer) (ev : WindowEvent) (obs : List Observer)
    (hnd : obs.Nodup) (ho : o ∈ obs) : eventsOf o (obs.map (fun p => (p, ev))) = [ev] := by
  induction obs with
  | nil => simp at ho
  | cons p ps ih =>
    rw [List.nodup_cons] at hnd
    by_cases hp : p = o
    · subst hp
      have := eventsOf_notify_not_mem p ev ps hnd.1
      simp only [eventsOf, List.map_cons, List.filter_cons, decide_True, if_true] at this ⊢
      rw [this]
    · have ho2 : o ∈ ps := by
        rcases List.mem_cons.mp ho with h | h
        · exact absurd h.symm hp
        · exact h
      have := ih hnd.2 ho2
      simp only [eventsOf, List.map_cons, List.filter_cons, hp, decide_False] at this ⊢
      exact this

/-- C9. Starting from an empty window registry, `AddWindow(w)` followed by
`RemoveWindow(w)` leaves the registry empty, and a subscribed observer
receives, after what it had received before, exactly `OnWindowAdded(w)`,
`OnWindowRemoved(w)`, `OnWindowAllClosed()` in that order. (The observer list
holds each observer once, as `AddObserver` ensures.) -/
theorem add_then_remove_events (w : NativeWindow) (s : WindowList) (o : Observer)
    (hempty : s.windows_ = []) (hnd : s.observers_.Nodup) (ho : o ∈ s.observers_) :
    ((s.AddWindow w).RemoveWindow w).windows_ = [] ∧
    ((s.AddWindow w).RemoveWindow w).delivered =
      s.delivered ++ s.observers_.map (fun p => (p, WindowEvent.OnWindowAdded w)) ++
        s.observers_.map (fun p => (p, WindowEvent.OnWindowRemoved w)) ++
        s.observers_.map (fun p => (p, WindowEvent.OnWindowAllClosed)) ∧
    eventsOf o ((s.AddWindow w).RemoveWindow w).delivered =
      eventsOf o s.delivered ++
        [WindowEvent.OnWindowAdded w, WindowEvent.OnWindowRemoved w,
         WindowEvent.OnWindowAllClosed] := by
  have hw : (s.AddWindow w).windows_ = [w] := by
    rw [AddWindow_eq, hempty]; rfl
  have hf : (s.AddWindow w).windows_.filter (fun x => x != w) = [] := by
    rw [hw]; simp
  have hr : (s.AddWindow w).RemoveWindow w =
      { instance_ := some [],
        observers_ := s.observers_,
        delivered := s.delivered ++ s.observers_.map (fun p => (p, WindowEvent.OnWindowAdded w)) ++
          s.observers_.map (fun p => (p, WindowEvent.OnWindowRemoved w)) ++
          s.observers_.map (fun p => (p, WindowEvent.OnWindowAllClosed)) } := by
    rw [RemoveWindow_eq, if_pos hf, hf, AddWindow_eq]
  rw [hr]
  refine ⟨rfl, rfl, ?_⟩
  simp only [eventsOf_append, eventsOf_notify o _ _ hnd ho, List.append_assoc,
    List.singleton_append]

/-- Witness for C9: observers 10 and 11 subscribe at process start, window 1
is added and removed; observer 11 is looked at. -/
theorem add_then_remove_events_witness :
    ((WindowList.init.AddObserver 10).AddObserver 11).windows_ = [] ∧
    ((WindowList.init.AddObserver 10).AddObserver 11).observers_.Nodup ∧
    11 ∈ ((WindowList.init.AddObserver 10).AddObserver 11).observers_ ∧
    eventsOf 11
      ((((WindowList.init.AddObserver 10).AddObserver 11).AddWindow 1).RemoveWindow 1).delivered =
      eventsOf 11 ((WindowList.init.AddObserver 10).AddObserver 11).delivered ++
        [WindowEvent.OnWindowAdded 1, WindowEvent.OnWindowRemoved 1,
         WindowEvent.OnWindowAllClosed] :=
  ⟨by decide, by decide, by decide,
   (add_then_remove_events 1 ((WindowList.init.AddObserver 10).AddObserver 11) 11
      (by decide) (by decide) (by decide)).2.2⟩

theorem closeEach_calls (Close : NativeWindow → WindowList → WindowList) :
    ∀ (ws : List NativeWindow) (s : WindowList) (calls : List NativeWindow),
    (closeEach Close ws s calls).1 = calls ++ ws := by
  intro ws
  induction ws with
  | nil => intro s calls; simp [closeEach]
  | cons w ws ih => intro s calls; simp [closeEach, ih]

theorem closeEach_state (Close : NativeWindow → WindowList → WindowList) :
    ∀ (ws : List NativeWindow) (s : WindowList) (calls : List NativeWindow),
    (closeEach Close ws s calls).2 = ws.foldl (fun st w => Close w st) s := by
  intro ws
  induction ws with
  | nil => intro s calls; rfl
  | cons w ws ih => intro s calls; simp only [closeEach, List.foldl_cons, ih]

/-- C10. Whatever the close operations do to the registry, `CloseAllWindows`
invokes `Close` on the windows that were in the sequence when it was called,
in sequence order and on nothing else; the close operations really take
effect, one after the other: the registry left is the one obtained by applying
`Close` for each window of the snapshot in turn, starting from the registry at
the call (with its instance created). When the windows of the snapshot are
distinct, each of them is closed exactly once. -/
theorem CloseAllWindows_closes_snapshot (Close : NativeWindow → WindowList → WindowList)
    (s : WindowList) :
    (s.CloseAllWindows Close).1 = s.windows_ ∧
    (s.CloseAllWindows Close).2 =
      s.windows_.foldl (fun st w => Close w st) s.GetInstance ∧
    (s.windows_.Nodup → ∀ w ∈ s.windows_, (s.CloseAllWindows Close).1.count w = 1) := by
  have h : (s.CloseAllWindows Close).1 = s.windows_ := by
    unfold WindowList.CloseAllWindows
    simp only [closeEach_calls, GetInstance_windows, List.nil_append]
  have h2 : (s.CloseAllWindows Close).2 =
      s.windows_.foldl (fun st w => Close w st) s.GetInstance := by
    unfold WindowList.CloseAllWindows
    simp only [closeEach_state, GetInstance_windows]
  refine ⟨h, h2, fun hnd w hw => ?_⟩
  rw [h]
  exact List.count_eq_one_of_mem hnd hw

/-- Witness for C10: windows 1, 2, 3 are open; closing window 1 also removes
window 2 from the registry while the loop is running. All three are closed,
in order, window 2 once, and the registry the close operations leave is the
one obtained by closing 1, then 2, then 3: it is empty. -/
theorem CloseAllWindows_closes_snapshot_witness :
    (((WindowList.init.AddWindow 1).AddWindow 2).AddWindow 3).windows_.Nodup ∧
    ((((WindowList.init.AddWindow 1).AddWindow 2).AddWindow 3).CloseAllWindows
        closeAlsoRemoving).1 = [1, 2, 3] ∧
    ((((WindowList.init.AddWindow 1).AddWindow 2).AddWindow 3).CloseAllWindows
        closeAlsoRemoving).1.count 2 = 1 ∧
    ((((WindowList.init.AddWindow 1).AddWindow 2).AddWindow 3).CloseAllWindows
        closeAlsoRemoving).2 =
      closeAlsoRemoving 3 (closeAlsoRemoving 2 (closeAlsoRemoving 1
        (((WindowList.init.AddWindow 1).AddWindow 2).AddWindow 3))) ∧
    ((((WindowList.init.AddWindow 1).AddWindow 2).AddWindow 3).CloseAllWindows
        closeAlsoRemoving).2.windows_ = [] :=
  ⟨by decide, by decide,
   (CloseAllWindows_closes_snapshot closeAlsoRemoving
      (((WindowList.init.AddWindow 1).AddWindow 2).AddWindow 3)).2.2 (by decide) 2 (by decide),
   (CloseAllWindows_closes_snapshot closeAlsoRemoving
      (((WindowList.init.AddWindow 1).AddWindow 2).AddWindow 3)).2.1.trans (by decide),
   by decide⟩

/-! ## The iteration bound of the pass is never reached -/

theorem listWeight_tailFrom_le (l : List (NodeId × Closure)) (id : NodeId) :
    listWeight (tailFrom l id) ≤ listWeight l := by
  induction l with
  | nil => simp [tailFrom]
  | cons x xs ih =>
    obtain ⟨i, c⟩ := x
    unfold tailFrom
    split
    · exact Nat.le_refl _
    · simp only [listWeight]; omega

theorem listWeight_listErase_le (l : List (NodeId × Closure)) (t : NodeId) :
    listWeight (listErase l t) ≤ listWeight l := by
  induction l with
  | nil => simp [listErase]
  | cons x xs ih =>
    obtain ⟨i, c⟩ := x
    unfold listErase
    split
    · simp only [listWeight]; omega
    · simp only [listWeight]; omega

theorem pending_listErase_le (l : List (NodeId × Closure)) (t : NodeId) (j : Option NodeId) :
    pending (listErase l t) j ≤ pending l j := by
  cases j with
  | none => simp [pending]
  | some id =>
    simp only [pending]
    induction l with
    | nil => simp [listErase]
    | cons x xs ih =>
      obtain ⟨i, c⟩ := x
      by_cases hit : i = t
      · subst hit
        by_cases hid : i = id
        · subst hid
          have := listWeight_tailFrom_le xs i
          simp only [listErase, if_true, tailFrom, listWeight]
          omega
        · simp only [listErase, if_true, tailFrom, hid, if_false]
          exact Nat.le_refl _
      · by_cases hid : i = id
        · subst hid
          have := listWeight_listErase_le xs t
          simp only [listErase, hit, if_false, tailFrom, if_true, listWeight]
          omega
        · simp only [listErase, hit, if_false, tailFrom, hid]
          exact ih

theorem pending_append_le (l : List (NodeId × Closure)) (n : NodeId) (c : Closure)
    (j : Option NodeId) : pending (l ++ [(n, c)]) j ≤ pending l j + c.weight := by
  cases j with
  | none => simp [pending]
  | some id =>
    simp only [pending]
    induction l with
    | nil =>
      simp only [List.nil_append, tailFrom]
      split <;> simp [listWeight]
    | cons x xs ih =>
      obtain ⟨i, d⟩ := x
      rw [List.cons_append]
      by_cases hid : i = id
      · subst hid
        simp only [tailFrom, if_true, listWeight]
        rw [listWeight_append]
        simp only [listWeight]
        omega
      · simp only [tailFrom, hid, if_false]
        exact ih

/-- Running a closure adds to the work in front of an iterator less than the
weight of the closure. -/
theorem Run_pending (c : Closure) (j : Option NodeId) : ∀ (s s1 : AtomBrowserMainParts),
    c.Run s = .ok s1 →
    pending s1.destructors_ j + 1 ≤ pending s.destructors_ j + c.weight := by
  induction c with
  | ret => intro s s1 h; simp [Closure.Run] at h; subst h; simp [Closure.weight]
  | effect tag k ih =>
    intro s s1 h
    simp only [Closure.Run] at h
    have := ih _ _ h
    simpa [Closure.weight] using this
  | runToken id k ih =>
    intro s s1 h
    simp only [Closure.Run] at h
    cases he : Erase id s with
    | error f => rw [he] at h; cases h
    | ok s2 =>
      rw [he] at h
      unfold Erase at he
      split at he
      · cases he
        have h1 := ih _ _ h
        have h2 := pending_listErase_le s.destructors_ id j
        simp only [Closure.weight] at h1 ⊢
        omega
      · cases he
  | registerCb c k _ ih =>
    intro s s1 h
    simp only [Closure.Run] at h
    have h1 := ih _ _ h
    have h2 := pending_append_le s.destructors_ s.next_node c j
    simp only [RegisterDestructionCallback, Closure.weight] at h1 ⊢
    omega

theorem Run_error_not_fuel (c : Closure) : ∀ (s : AtomBrowserMainParts) (f : Fault),
    c.Run s = .error f → f ≠ .out_of_fuel := by
  induction c with
  | ret => intro s f h; simp [Closure.Run] at h
  | effect tag k ih => intro s f h; simp only [Closure.Run] at h; exact ih _ _ h
  | runToken id k ih =>
    intro s f h
    simp only [Closure.Run] at h
    cases he : Erase id s with
    | error g =>
      rw [he] at h
      unfold Erase at he
      split at he
      · cases he
      · cases he; cases h; simp
    | ok s2 => rw [he] at h; exact ih _ _ h
  | registerCb c k _ ih => intro s f h; simp only [Closure.Run] at h; exact ih _ _ h

theorem nodup_listErase (l : List (NodeId × Closure)) (t : NodeId)
    (h : (nodeIds l).Nodup) : (nodeIds (listErase l t)).Nodup := by
  induction l with
  | nil => simp [listErase, nodeIds]
  | cons x xs ih =>
    obtain ⟨i, c⟩ := x
    simp only [nodeIds, List.map_cons, List.nodup_cons] at h
    unfold listErase
    split
    · exact h.2
    · simp only [nodeIds, List.map_cons, List.nodup_cons]
      exact ⟨fun hm => h.1 (nodeIds_listErase_subset xs t i hm), ih h.2⟩

theorem Erase_wf (id : NodeId) (s s1 : AtomBrowserMainParts) (h : Erase id s = .ok s1)
    (hw : WellFormed s) : WellFormed s1 := by
  unfold Erase at h
  split at h
  · cases h
    exact ⟨nodup_listErase _ _ hw.1, fun x hx => hw.2 x (nodeIds_listErase_subset _ _ _ hx)⟩
  · cases h

theorem Register_wf (c : Closure) (s : AtomBrowserMainParts) (hw : WellFormed s) :
    WellFormed (RegisterDestructionCallback c s).2 := by
  unfold WellFormed at hw ⊢
  simp only [RegisterDestructionCallback, nodeIds, List.map_append, List.map_cons, List.map_nil]
  constructor
  · rw [List.nodup_append]
    refine ⟨hw.1, List.nodup_singleton _, ?_⟩
    intro a ha hb
    rw [List.mem_singleton] at hb
    exact absurd hb (Nat.ne_of_lt (hw.2 a ha))
  · intro x hx
    rcases List.mem_append.mp hx with h | h
    · exact Nat.lt_succ_of_lt (hw.2 x h)
    · rw [List.mem_singleton] at h; rw [h]; exact Nat.lt_succ_self _

theorem Run_wf (c : Closure) : ∀ (s s1 : AtomBrowserMainParts), c.Run s = .ok s1 →
    WellFormed s → WellFormed s1 := by
  induction c with
  | ret => intro s s1 h hw; simp [Closure.Run] at h; subst h; exact hw
  | effect tag k ih =>
    intro s s1 h hw
    simp only [Closure.Run] at h
    exact ih _ _ h hw
  | runToken id k ih =>
    intro s s1 h hw
    simp only [Closure.Run] at h
    cases he : Erase id s with
    | error f => rw [he] at h; cases h
    | ok s2 => rw [he] at h; exact ih _ _ h (Erase_wf id s s2 he hw)
  | registerCb c k _ ih =>
    intro s s1 h hw
    simp only [Closure.Run] at h
    exact ih _ _ h (Register_wf c s hw)

theorem listBegin_mem (l : List (NodeId × Closure)) (j : NodeId) (h : listBegin l = some j) :
    j ∈ nodeIds l := by
  cases l with
  | nil => simp [listBegin] at h
  | cons x xs =>
    obtain ⟨i, c⟩ := x
    simp only [listBegin, Option.some.injEq] at h
    simp [nodeIds, h]

theorem listNext_mem (l : List (NodeId × Closure)) (id j : NodeId)
    (h : listNext l id = some j) : j ∈ nodeIds l := by
  induction l with
  | nil => simp [listNext] at h
  | cons x xs ih =>
    obtain ⟨i, c⟩ := x
    unfold listNext at h
    simp only [nodeIds, List.map_cons, List.mem_cons]
    split at h
    · exact Or.inr (listBegin_mem xs j h)
    · exact Or.inr (ih h)

theorem pending_listBegin (l : List (NodeId × Closure)) :
    pending l (listBegin l) = listWeight l := by
  cases l with
  | nil => rfl
  | cons x xs => obtain ⟨i, c⟩ := x; simp [listBegin, pending, tailFrom]

theorem pending_cons_of_not_mem (i : NodeId) (c : Closure) (xs : List (NodeId × Closure))
    (j : Option NodeId) (h : ∀ k, j = some k → k ≠ i) :
    pending ((i, c) :: xs) j = pending xs j := by
  cases j with
  | none => rfl
  | some k =>
    have : ¬ i = k := fun e => h k rfl e.symm
    simp [pending, tailFrom, this]

/-- Advancing the iterator past a node takes the weight of that node off the
work in front of it. -/
theorem pending_listNext (l : List (NodeId × Closure)) (id : NodeId) (cb : Closure)
    (hnd : (nodeIds l).Nodup) (hd : deref l id = some cb) :
    pending l (listNext l id) + cb.weight ≤ pending l (some id) := by
  induction l with
  | nil => simp [deref] at hd
  | cons x xs ih =>
    obtain ⟨i, c⟩ := x
    simp only [nodeIds, List.map_cons, List.nodup_cons] at hnd
    by_cases hid : i = id
    · subst hid
      simp only [deref, if_true, Option.some.injEq] at hd
      subst hd
      have h1 : pending ((i, c) :: xs) (listBegin xs) = pending xs (listBegin xs) :=
        pending_cons_of_not_mem i c xs _ (fun k hk e => hnd.1 (e ▸ listBegin_mem xs k hk))
      have hn : listNext ((i, c) :: xs) i = listBegin xs := by simp [listNext]
      have hp : pending ((i, c) :: xs) (some i) = c.weight + listWeight xs := by
        simp [pending, tailFrom, listWeight]
      rw [hn, h1, pending_listBegin, hp]
      omega
    · simp only [deref, hid, if_false] at hd
      have h1 : pending ((i, c) :: xs) (listNext xs id) = pending xs (listNext xs id) :=
        pending_cons_of_not_mem i c xs _ (fun k hk e => hnd.1 (e ▸ listNext_mem xs id k hk))
      have h2 := ih hnd.2 hd
      have hn : listNext ((i, c) :: xs) id = listNext xs id := by simp [listNext, hid]
      have hp : pending ((i, c) :: xs) (some id) = pending xs (some id) := by
        simp [pending, tailFrom, hid]
      rw [hn, h1, hp]
      exact h2

/-- With more iterations allowed than there is work in front of the iterator,
the loop does not stop for lack of iterations. -/
theorem runLoop_fuel_suffices : ∀ (fuel : Nat) (s : AtomBrowserMainParts)
    (iter : Option NodeId) (trace : List (NodeId × Closure)),
    WellFormed s → pending s.destructors_ iter < fuel →
    (runLoop fuel s iter trace).result ≠ .error .out_of_fuel := by
  intro fuel
  induction fuel with
  | zero => intro s iter trace _ h; omega
  | succ n ih =>
    intro s iter trace hw hp
    cases iter with
    | none => simp [runLoop]
    | some id =>
      simp only [runLoop]
      cases hd : deref s.destructors_ id with
      | none => simp
      | some cb =>
        simp only
        cases hr : cb.Run s with
        | error f =>
          simp only
          intro e
          exact Run_error_not_fuel cb s f hr (by simpa using e)
        | ok s2 =>
          simp only
          apply ih s2 _ _ (Run_wf cb s s2 hr hw)
          have h1 := pending_listNext s.destructors_ id cb hw.1 hd
          have h2 := Run_pending cb (listNext s.destructors_ id) s s2 hr
          omega

/-- The pass over a well-formed list always ends with a result or with a
fault of the program itself, never on the iteration bound of the model. -/
theorem PostMainMessageLoopRun_fuel_suffices (s : AtomBrowserMainParts) (hw : WellFormed s) :
    (PostMainMessageLoopRun s).result ≠ .error .out_of_fuel := by
  unfold PostMainMessageLoopRun
  apply runLoop_fuel_suffices _ _ _ _ hw
  rw [pending_listBegin]
  exact Nat.lt_succ_self _

theorem init_wf (heap : Addr → Int) : WellFormed (AtomBrowserMainParts.init heap) := by
  simp [WellFormed, AtomBrowserMainParts.init, nodeIds]

theorem runLoop_wf : ∀ (fuel : Nat) (s : AtomBrowserMainParts) (iter : Option NodeId)
    (trace : List (NodeId × Closure)) (s1 : AtomBrowserMainParts),
    (runLoop fuel s iter trace).result = .ok s1 → WellFormed s → WellFormed s1 := by
  intro fuel
  induction fuel with
  | zero => intro s iter trace s1 h; simp [runLoop] at h
  | succ n ih =>
    intro s iter trace s1 h hw
    cases iter with
    | none => simp [runLoop] at h; subst h; exact hw
    | some id =>
      simp only [runLoop] at h
      cases hd : deref s.destructors_ id with
      | none => rw [hd] at h; simp at h
      | some cb =>
        rw [hd] at h
        simp only at h
        cases hr : cb.Run s with
        | error f => rw [hr] at h; simp at h
        | ok s2 =>
          rw [hr] at h
          exact ih _ _ _ _ h (Run_wf cb s s2 hr hw)

/-- Every state reached from the constructor through calls on the
orchestrator is well-formed. -/
theorem execAll_wf (base : Addr → (Addr → Int) → Bool × (Addr → Int)) :
    ∀ (calls : List Call) (s s1 : AtomBrowserMainParts), execAll base calls s = .ok s1 →
    WellFormed s → WellFormed s1 := by
  intro calls
  induction calls with
  | nil => intro s s1 h hw; simp [execAll] at h; subst h; exact hw
  | cons c cs ih =>
    intro s s1 h hw
    simp only [execAll] at h
    cases hc : c.exec base s with
    | error f => rw [hc] at h; cases h
    | ok s2 =>
      rw [hc] at h
      apply ih _ _ h
      cases c with
      | setExitCode code =>
        simp only [Call.exec, Except.ok.injEq] at hc
        subst hc
        unfold SetExitCode
        cases s.exit_code_ <;> exact hw
      | mainMessageLoopRun p =>
        simp only [Call.exec, Except.ok.injEq] at hc
        subst hc; exact hw
      | registerDestructionCallback c =>
        simp only [Call.exec, Except.ok.injEq] at hc
        subst hc; exact Register_wf c s hw
      | runToken id => exact Erase_wf id s s2 hc hw
      | postMainMessageLoopRun => exact runLoop_wf _ _ _ _ _ hc hw

end atom
